import Mathlib

/-!
Verification of the salvium-js light-wallet core against its specification.

Each section shallowly embeds one subsystem of the JavaScript source
(`src/…`) as executable Lean definitions, then states and proves the
specification claims about it.  Modules of the repository whose source is
not part of the snapshot (only their tests, callers or the spec describe
them) are modelled from the specification; every such definition carries a
doc comment starting with `Modelled from the spec:`.
-/

set_option maxRecDepth 100000

namespace SalviumJS

/-! ## Wallet storage (reorg-safe) — spec §4.9, wallet-store.js

The storage module `wallet-store.js` itself is not in the snapshot; only
its test file (`test/wallet-store… reorg` tests) is.  The state and the
operations below are therefore modelled from the spec, §4.9, matching the
behaviour asserted by the tests. -/

/-- Modelled from the spec: `WalletOutput` record of wallet-store.js (§3
"Wallet output"); only the fields touched by the reorg recipe and the
sweep selection are carried. -/
structure WalletOutput where
  keyImage : String
  blockHeight : Nat
  amount : Nat
  isSpent : Bool := false
  spentTxHash : Option String := none
  spentHeight : Option Nat := none
  isFrozen : Bool := false
  assetType : String := "SAL"
  unlockHeight : Nat := 0
  isCarrot : Bool := false
  carrotSharedSecret : Option String := none
  commitment : Option String := none
  mask : Option String := none
  globalIndex : Option Nat := none
  deriving Repr, DecidableEq

/-- Modelled from the spec: `WalletTransaction` record of wallet-store.js
(§3 "Wallet transaction"). -/
structure WalletTransaction where
  txHash : String
  blockHeight : Nat
  deriving Repr, DecidableEq

/-- Modelled from the spec: the in-memory reference `MemoryStorage` of
wallet-store.js (§4.9): outputs keyed by key image, transactions keyed by
tx hash, and the height → block-hash index. -/
structure MemoryStorage where
  outputs : List WalletOutput := []
  transactions : List WalletTransaction := []
  blockHashes : List (Nat × String) := []
  deriving Repr

/-- Modelled from the spec: `getOutput(key_image)` of wallet-store.js. -/
def MemoryStorage.getOutput (s : MemoryStorage) (ki : String) : Option WalletOutput :=
  s.outputs.find? (fun o => o.keyImage = ki)

/-- Modelled from the spec: `getTransaction(tx_hash)` of wallet-store.js. -/
def MemoryStorage.getTransaction (s : MemoryStorage) (h : String) : Option WalletTransaction :=
  s.transactions.find? (fun t => t.txHash = h)

/-- Modelled from the spec: `getBlockHash(h)` of wallet-store.js — `null`
(here `none`) when no hash is stored at the height. -/
def MemoryStorage.getBlockHash (s : MemoryStorage) (h : Nat) : Option String :=
  s.blockHashes.lookup h

/-- Modelled from the spec: `deleteOutputsAbove(h)` of wallet-store.js —
removes outputs with `block_height > h`. -/
def MemoryStorage.deleteOutputsAbove (s : MemoryStorage) (h : Nat) : MemoryStorage :=
  { s with outputs := s.outputs.filter (fun o => decide (o.blockHeight ≤ h)) }

/-- Modelled from the spec: `deleteTransactionsAbove(h)` of wallet-store.js. -/
def MemoryStorage.deleteTransactionsAbove (s : MemoryStorage) (h : Nat) : MemoryStorage :=
  { s with transactions := s.transactions.filter (fun t => decide (t.blockHeight ≤ h)) }

/-- Clearing of the spent marks on one output, as `unspend_outputs_above`
applies it to outputs whose `spent_height` lies above the cut. -/
def unspendOne (h : Nat) (o : WalletOutput) : WalletOutput :=
  match o.spentHeight with
  | some sh =>
      if h < sh then
        { o with isSpent := false, spentTxHash := none, spentHeight := none }
      else o
  | none => o

/-- Modelled from the spec: `unspendOutputsAbove(h)` of wallet-store.js —
for every output whose `spent_height > h`, clear
`is_spent / spent_tx_hash / spent_height`. -/
def MemoryStorage.unspendOutputsAbove (s : MemoryStorage) (h : Nat) : MemoryStorage :=
  { s with outputs := s.outputs.map (unspendOne h) }

/-- Modelled from the spec: `deleteBlockHashesAbove(h)` of wallet-store.js. -/
def MemoryStorage.deleteBlockHashesAbove (s : MemoryStorage) (h : Nat) : MemoryStorage :=
  { s with blockHashes := s.blockHashes.filter (fun p => decide (p.1 ≤ h)) }

/-- The reorg recipe of §4.9, exactly in source order:
`deleteOutputsAbove`, `deleteTransactionsAbove`, `unspendOutputsAbove`,
`deleteBlockHashesAbove`, all at `h* − 1`. -/
def reorgRollback (s : MemoryStorage) (reorgHeight : Nat) : MemoryStorage :=
  ((((s.deleteOutputsAbove reorgHeight).deleteTransactionsAbove
      reorgHeight).unspendOutputsAbove reorgHeight).deleteBlockHashesAbove reorgHeight)

theorem unspendOne_spentHeight_le (h : Nat) (o : WalletOutput) (sh : Nat)
    (hs : (unspendOne h o).spentHeight = some sh) : sh ≤ h := by
  unfold unspendOne at hs
  split at hs
  · rename_i sh0 heq
    split at hs
    · exact absurd hs (by simp)
    · rw [heq] at hs
      have := Option.some.inj hs
      omega
  · rename_i heq
    rw [heq] at hs
    exact absurd hs (by simp)

theorem lookup_filter_le_none {l : List (Nat × String)} {r h : Nat} (hh : r < h) :
    (l.filter (fun p => decide (p.1 ≤ r))).lookup h = none := by
  induction l with
  | nil => rfl
  | cons p t ih =>
      by_cases hp : p.1 ≤ r
      · have hne : (h == p.1) = false := by
          simp only [beq_eq_false_iff_ne]; omega
        simp [List.filter, hp, List.lookup, hne, ih]
      · simp [List.filter, hp, ih]

/-- C1: For every storage state and every reorg height `h*` (lowest height
where the local block hash disagrees), running the reorg recipe
`deleteOutputsAbove(h*−1)`, `deleteTransactionsAbove(h*−1)`,
`unspendOutputsAbove(h*−1)`, `deleteBlockHashesAbove(h*−1)` leaves a state
in which `getBlockHash(h) = null` for all `h > h*−1`, no stored output or
transaction has `blockHeight > h*−1`, every output and transaction with
`blockHeight ≤ h*−1` is still present, and every output whose
`spentHeight > h*−1` has had `isSpent / spentTxHash / spentHeight`
cleared. -/
theorem claim_C1_reorg_rollback (s : MemoryStorage) (hStar : Nat) (hpos : 1 ≤ hStar) :
    (∀ h, hStar - 1 < h → (reorgRollback s (hStar - 1)).getBlockHash h = none) ∧
    (∀ o ∈ (reorgRollback s (hStar - 1)).outputs, o.blockHeight ≤ hStar - 1) ∧
    (∀ t ∈ (reorgRollback s (hStar - 1)).transactions, t.blockHeight ≤ hStar - 1) ∧
    (∀ o ∈ s.outputs, o.blockHeight ≤ hStar - 1 →
      unspendOne (hStar - 1) o ∈ (reorgRollback s (hStar - 1)).outputs) ∧
    (∀ t ∈ s.transactions, t.blockHeight ≤ hStar - 1 →
      t ∈ (reorgRollback s (hStar - 1)).transactions) ∧
    (∀ o ∈ s.outputs, o.blockHeight ≤ hStar - 1 → ∀ sh, o.spentHeight = some sh →
      hStar - 1 < sh →
      { o with isSpent := false, spentTxHash := none, spentHeight := none }
        ∈ (reorgRollback s (hStar - 1)).outputs) ∧
    (∀ o ∈ (reorgRollback s (hStar - 1)).outputs, ∀ sh, o.spentHeight = some sh →
      sh ≤ hStar - 1) := by
  set r := hStar - 1 with hr
  have houts : (reorgRollback s r).outputs
      = (s.outputs.filter (fun o => decide (o.blockHeight ≤ r))).map (unspendOne r) := rfl
  have htxs : (reorgRollback s r).transactions
      = s.transactions.filter (fun t => decide (t.blockHeight ≤ r)) := rfl
  have hbh : (reorgRollback s r).blockHashes
      = s.blockHashes.filter (fun p => decide (p.1 ≤ r)) := rfl
  refine ⟨?_, ?_, ?_, ?_, ?_, ?_, ?_⟩
  · intro h hh
    show (reorgRollback s r).blockHashes.lookup h = none
    rw [hbh]
    exact lookup_filter_le_none hh
  · intro o ho
    rw [houts] at ho
    rcases List.mem_map.mp ho with ⟨o0, ho0, rfl⟩
    have := (List.mem_filter.mp ho0).2
    have hble : o0.blockHeight ≤ r := by simpa using this
    unfold unspendOne
    cases o0.spentHeight with
    | none => simpa using hble
    | some sh =>
        by_cases hlt : r < sh
        · simpa [hlt] using hble
        · simpa [hlt] using hble
  · intro t ht
    rw [htxs] at ht
    simpa using (List.mem_filter.mp ht).2
  · intro o ho hble
    rw [houts]
    exact List.mem_map.mpr ⟨o, List.mem_filter.mpr ⟨ho, by simpa using hble⟩, rfl⟩
  · intro t ht hble
    rw [htxs]
    exact List.mem_filter.mpr ⟨ht, by simpa using hble⟩
  · intro o ho hble sh hsh hlt
    rw [houts]
    refine List.mem_map.mpr ⟨o, List.mem_filter.mpr ⟨ho, by simpa using hble⟩, ?_⟩
    unfold unspendOne
    rw [hsh]
    simp [hlt]
  · intro o ho sh hsp
    rw [houts] at ho
    rcases List.mem_map.mp ho with ⟨o0, _, rfl⟩
    exact unspendOne_spentHeight_le r o0 sh hsp

/-- The storage state of the combined reorg rollback scenario of the
wallet-store tests. -/
def reorgDemoStorage : MemoryStorage :=
  { outputs := [{ keyImage := "o1", blockHeight := 50, amount := 1000,
                  isSpent := true, spentTxHash := some "tx_spend_o1",
                  spentHeight := some 120 },
                { keyImage := "o3", blockHeight := 150, amount := 3000 }]
    transactions := [{ txHash := "tx_a", blockHeight := 80 },
                     { txHash := "tx_b", blockHeight := 130 }]
    blockHashes := [(99, "hash_99"), (100, "hash_100"), (101, "hash_101")] }

/-- Witness for C1 at a concrete storage state and `h* = 100`. -/
theorem claim_C1_witness :
    (reorgRollback reorgDemoStorage (100 - 1)).getBlockHash 101 = none :=
  (claim_C1_reorg_rollback reorgDemoStorage 100 (by decide)).1 101 (by decide)

/-! ## Fork policy — spec §4.10, consensus.js

`consensus.js` is not in the snapshot; only the cross-fork test file uses
it.  The decision table below is modelled from the spec §4.10 and the
testnet heights listed in `test/cross-fork-tx.test.js`. -/

/-- Transaction type tags (`TX_TYPE` of transaction.js). -/
inductive TxType
  | transfer
  | stake
  | burn
  | convert
  deriving Repr, DecidableEq

/-- Ring-signature schemes of §4.10. -/
inductive SigType
  | clsag
  | tclsag
  deriving Repr, DecidableEq

/-- Modelled from the spec: `getHfVersionForHeight(height, 'testnet')` of
consensus.js; activation heights HF1:1, HF2:250, HF3:500, HF4:600, HF5:800,
HF6:815, HF7:900, HF8:950, HF9:1000, HF10:1100 (test header list). -/
def getHfVersionForHeight (height : Nat) : Nat :=
  if 1100 ≤ height then 10
  else if 1000 ≤ height then 9
  else if 950 ≤ height then 8
  else if 900 ≤ height then 7
  else if 815 ≤ height then 6
  else if 800 ≤ height then 5
  else if 600 ≤ height then 4
  else if 500 ≤ height then 3
  else if 250 ≤ height then 2
  else 1

/-- Modelled from the spec: `getTxVersion(txType, height, 'testnet')` of
consensus.js — TRANSFER: v2 at HF1, v3 from HF2, v4 from HF10; the other
types: v2 before HF10 and v4 from HF10. -/
def getTxVersion (t : TxType) (height : Nat) : Nat :=
  let hf := getHfVersionForHeight height
  match t with
  | .transfer => if 10 ≤ hf then 4 else if 2 ≤ hf then 3 else 2
  | _ => if 10 ≤ hf then 4 else 2

/-- Modelled from the spec: `getRctType(height, 'testnet')` of consensus.js
— 6 (BulletproofPlus) at HF1–2, 7 (FullProofs) at HF3–5, 8 (SalviumZero) at
HF6–9, 9 (SalviumOne) from HF10. -/
def getRctType (height : Nat) : Nat :=
  let hf := getHfVersionForHeight height
  if 10 ≤ hf then 9 else if 6 ≤ hf then 8 else if 3 ≤ hf then 7 else 6

/-- Modelled from the spec: `getActiveAssetType(height, 'testnet')` of
consensus.js — `SAL` before HF6, `SAL1` from HF6. -/
def getActiveAssetType (height : Nat) : String :=
  if 6 ≤ getHfVersionForHeight height then "SAL1" else "SAL"

/-- Modelled from the spec: the ring-signature scheme selection of §4.10 —
CLSAG for forks 1–9, TCLSAG from fork 10. -/
def getSigType (height : Nat) : SigType :=
  if 10 ≤ getHfVersionForHeight height then .tclsag else .clsag

/-- Modelled from the spec: `isCarrotActive(height, 'testnet')` of
consensus.js — `carrot_active ⇔ hf ≥ 10`. -/
def isCarrotActive (height : Nat) : Bool :=
  10 ≤ getHfVersionForHeight height

/-- The assembled `policy(height)` tuple of §4.10 for testnet TRANSFER
transactions. -/
structure ForkPolicy where
  hfVersion : Nat
  txVersion : Nat
  rctType : Nat
  sigType : SigType
  assetType : String
  deriving Repr, DecidableEq

/-- Modelled from the spec: `policy(height, testnet)` of §4.10, built from
the consensus.js selectors for a TRANSFER transaction. -/
def policy (height : Nat) : ForkPolicy :=
  { hfVersion := getHfVersionForHeight height
    txVersion := getTxVersion .transfer height
    rctType := getRctType height
    sigType := getSigType height
    assetType := getActiveAssetType height }

/-- C2: On testnet the fork policy is a pure function of height:
`policy(100) = (hf=1, txver=2, rct=6, CLSAG, SAL)`,
`policy(815) = (hf=6, txver=3, rct=8, CLSAG, SAL1)`,
`policy(1100) = (hf=10, txver=4, rct=9, TCLSAG, SAL1)`; and for the
non-TRANSFER types (STAKE/BURN/CONVERT) the tx version is 2 at every
height before HF10 and 4 from HF10 on. -/
theorem claim_C2_fork_policy (h : Nat) (t : TxType) (ht : t ≠ TxType.transfer) :
    policy 100 = { hfVersion := 1, txVersion := 2, rctType := 6,
                   sigType := .clsag, assetType := "SAL" } ∧
    policy 815 = { hfVersion := 6, txVersion := 3, rctType := 8,
                   sigType := .clsag, assetType := "SAL1" } ∧
    policy 1100 = { hfVersion := 10, txVersion := 4, rctType := 9,
                    sigType := .tclsag, assetType := "SAL1" } ∧
    getTxVersion t h = (if 10 ≤ getHfVersionForHeight h then 4 else 2) := by
  refine ⟨by decide, by decide, by decide, ?_⟩
  cases t with
  | transfer => exact absurd rfl ht
  | stake => rfl
  | burn => rfl
  | convert => rfl

/-- Witness for C2 at height 500 and the STAKE transaction type. -/
theorem claim_C2_witness :
    policy 100 = { hfVersion := 1, txVersion := 2, rctType := 6,
                   sigType := .clsag, assetType := "SAL" } ∧
    policy 815 = { hfVersion := 6, txVersion := 3, rctType := 8,
                   sigType := .clsag, assetType := "SAL1" } ∧
    policy 1100 = { hfVersion := 10, txVersion := 4, rctType := 9,
                    sigType := .tclsag, assetType := "SAL1" } ∧
    getTxVersion .stake 500 = (if 10 ≤ getHfVersionForHeight 500 then 4 else 2) :=
  claim_C2_fork_policy 500 .stake (by decide)

/-! ## Mnemonic seed encoding — src/mnemonic.js

Characters are modelled as natural numbers (UTF-16 code units, as
JavaScript's `charCodeAt` delivers them); strings as lists of such
numbers.  Error-message strings of the source are not modelled: a failing
result is `none`, a successful one `some seed`, matching the
`valid` / `seed` fields of the source's result object. -/

/-- The code points matched by JavaScript's `\s` (used by `trim()` and
`split(/\s+/)` in mnemonic.js). -/
def isJsSpace (c : Nat) : Bool :=
  decide (c = 0x20 ∨ (0x9 ≤ c ∧ c ≤ 0xD) ∨ c = 0xA0 ∨ c = 0x1680 ∨
    (0x2000 ≤ c ∧ c ≤ 0x200A) ∨ c = 0x2028 ∨ c = 0x2029 ∨ c = 0x202F ∨
    c = 0x205F ∨ c = 0x3000 ∨ c = 0xFEFF)

/-- `toLowerCase` on one code unit, restricted to the ASCII letters
(`A`–`Z` ↦ `a`–`z`); all other code points are left unchanged.  The
library's word lists are already lower case, so the ASCII mapping is the
part of `toLowerCase` the claims exercise. -/
def jsToLower (c : Nat) : Nat :=
  if 65 ≤ c ∧ c ≤ 90 then c + 32 else c

/-- Splitting on whitespace runs: the token stream produced by
`mnemonic.toLowerCase().trim().split(/\s+/)` (empty tokens dropped; the
source's lone-empty-string result on an all-whitespace input also fails
the 25-word length check, so the outcomes agree). -/
def splitWsAux : List Nat → List Nat → List (List Nat)
  | [], acc => if acc.isEmpty then [] else [acc.reverse]
  | c :: rest, acc =>
      if isJsSpace c then
        if acc.isEmpty then splitWsAux rest []
        else acc.reverse :: splitWsAux rest []
      else splitWsAux rest (c :: acc)

/-- The word tokens of a mnemonic string: lower-case, then split on
whitespace. -/
def tokenize (s : List Nat) : List (List Nat) :=
  splitWsAux (s.map jsToLower) []

/-- One bit step of the CRC32 loop of mnemonic.js:
`crc = (crc >>> 1) ^ (crc & 1 ? 0xEDB88320 : 0)`. -/
def crc32Bit (crc : Nat) : Nat :=
  Nat.xor (crc / 2) (if crc % 2 = 1 then 0xEDB88320 else 0)

/-- One character step of the CRC32 loop: xor the code unit in, then
eight bit steps. -/
def crc32Byte (crc c : Nat) : Nat :=
  crc32Bit^[8] (Nat.xor crc c)

/-- `crc32` of mnemonic.js over the code units of a string. -/
def crc32 (s : List Nat) : Nat :=
  Nat.xor (s.foldl crc32Byte 0xFFFFFFFF) 0xFFFFFFFF

/-- A language object as mnemonic.js receives it in
`options.language`: a word array plus its prefix length. -/
structure MnemonicLanguage where
  words : List (List Nat)
  prefixLength : Nat

/-- The prefix length resolveWordList uses:
`options.language.prefixLength || 3`. -/
def MnemonicLanguage.effPrefixLength (L : MnemonicLanguage) : Nat :=
  if L.prefixLength = 0 then 3 else L.prefixLength

/-- `w.slice(0, prefixLength)`. -/
def prefixOf (pl : Nat) (w : List Nat) : List Nat :=
  w.take pl

/-- `Array.prototype.indexOf` on a word list (`none` for the source's
`-1`). -/
def jsIndexOf (l : List (List Nat)) (w : List Nat) : Option Nat :=
  go l 0
where
  go : List (List Nat) → Nat → Option Nat
    | [], _ => none
    | x :: xs, i => if x = w then some i else go xs (i + 1)

/-- The word → index conversion loop of `mnemonicToSeed`; fails on the
first unknown word. -/
def wordsToIndices (l : List (List Nat)) : List (List Nat) → Option (List Nat)
  | [] => some []
  | w :: ws =>
      match jsIndexOf l w, wordsToIndices l ws with
      | some i, some is => some (i :: is)
      | _, _ => none

/-- The word-list size constant `WORD_LIST_SIZE = 1626`. -/
def WORD_LIST_SIZE : Nat := 1626

/-- Decoding of one 3-word group of `mnemonicToSeed`:
`val = w1 + N*(((N − w1) + w2) % N) + N²*(((N − w2) + w3) % N)`, rejected
unless `val % N = w1`, then stored as four little-endian bytes.  The
source extracts the bytes with 32-bit shift/mask operators; for the
values reachable here (`val < 1626³ < 2³³`) those coincide with the plain
base-256 digits used below. -/
def decodeGroup (w1 w2 w3 : Nat) : Option (List Nat) :=
  let N := WORD_LIST_SIZE
  let val := w1 + N * ((N - w1 + w2) % N) + N * N * ((N - w2 + w3) % N)
  if val % N ≠ w1 then none
  else some [val % 256, val / 256 % 256, val / 65536 % 256, val / 16777216 % 256]

/-- The eight-group decode loop of `mnemonicToSeed` over the 24 data-word
indices. -/
def decodeGroups : List Nat → Option (List Nat)
  | [] => some []
  | w1 :: w2 :: w3 :: rest =>
      match decodeGroup w1 w2 w3, decodeGroups rest with
      | some bs, some brest => some (bs ++ brest)
      | _, _ => none
  | _ => none

/-- `mnemonicToSeed` of mnemonic.js after tokenization, for an explicitly
supplied language object: length check, word-index lookup, prefix-based
checksum verification against the word at `CRC32(prefixes) mod 24`, then
group decoding of the first 24 words. -/
def mnemonicToSeedTokens (L : MnemonicLanguage) (words : List (List Nat)) :
    Option (List Nat) :=
  if words.length ≠ 25 then none
  else
    match wordsToIndices L.words words with
    | none => none
    | some indices =>
        let pl := L.effPrefixLength
        let checksumData := ((words.take 24).map (prefixOf pl)).flatten
        let checksumIndex := crc32 checksumData % 24
        let expectedPrefix := prefixOf pl (words.getD checksumIndex [])
        let actualPrefix := prefixOf pl (words.getD 24 [])
        if expectedPrefix ≠ actualPrefix then none
        else decodeGroups (indices.take 24)

/-- `mnemonicToSeed(mnemonic, {language: L})` of mnemonic.js: `some seed`
for `valid = true`, `none` otherwise. -/
def mnemonicToSeed (L : MnemonicLanguage) (s : List Nat) : Option (List Nat) :=
  mnemonicToSeedTokens L (tokenize s)

/-- Encoding of one 4-byte group of `seedToMnemonic`:
`w1 = val % N`, `w2 = (⌊val/N⌋ + w1) % N`, `w3 = (⌊val/N²⌋ + w2) % N`.
The source computes `val / N / N` with floating-point division before
`Math.floor`; for `val < 2³²` that equals the integer quotient used
here. -/
def encodeGroup (b0 b1 b2 b3 : Nat) : List Nat :=
  let val := b0 + 256 * b1 + 65536 * b2 + 16777216 * b3
  let N := WORD_LIST_SIZE
  let w1 := val % N
  let w2 := (val / N + w1) % N
  let w3 := (val / N / N + w2) % N
  [w1, w2, w3]

/-- The per-4-bytes word production loop of `seedToMnemonic`. -/
def seedWordsAux (l : List (List Nat)) : List Nat → List (List Nat)
  | b0 :: b1 :: b2 :: b3 :: rest =>
      ((encodeGroup b0 b1 b2 b3).map (fun i => l.getD i [])) ++ seedWordsAux l rest
  | _ => []

/-- `words.join(' ')`. -/
def joinWords (ws : List (List Nat)) : List Nat :=
  (ws.intersperse [0x20]).flatten

/-- `seedToMnemonic(seed, {language: L})` of mnemonic.js: 24 data words
from the 32 seed bytes, plus the checksum word (the word at index
`CRC32(prefixes) mod 24` repeated), joined with single spaces.  `none`
models the length-check throw. -/
def seedToMnemonic (L : MnemonicLanguage) (seed : List Nat) : Option (List Nat) :=
  if seed.length ≠ 32 then none
  else
    let ws := seedWordsAux L.words seed
    let pl := L.effPrefixLength
    let checksumIndex := crc32 ((ws.map (prefixOf pl)).flatten) % 24
    some (joinWords (ws ++ [ws.getD checksumIndex []]))

/-! ### Tokenizer lemmas -/

theorem splitWsAux_word (w rest acc : List Nat) (hw : ∀ c ∈ w, isJsSpace c = false) :
    splitWsAux (w ++ rest) acc = splitWsAux rest (w.reverse ++ acc) := by
  induction w generalizing acc with
  | nil => simp
  | cons c t ih =>
      have hc : isJsSpace c = false := hw c (by simp)
      have ht : ∀ d ∈ t, isJsSpace d = false := fun d hd => hw d (by simp [hd])
      simp only [List.cons_append, splitWsAux, hc, Bool.false_eq_true, if_false,
        List.append_eq]
      rw [ih (c :: acc) ht]
      simp

theorem splitWsAux_all_space (post acc : List Nat) (hp : ∀ c ∈ post, isJsSpace c = true) :
    splitWsAux post acc = if acc.isEmpty then [] else [acc.reverse] := by
  induction post generalizing acc with
  | nil => rfl
  | cons c t ih =>
      have hc : isJsSpace c = true := hp c (by simp)
      have ht : ∀ d ∈ t, isJsSpace d = true := fun d hd => hp d (by simp [hd])
      simp only [splitWsAux, hc, if_true, List.append_eq]
      by_cases ha : acc.isEmpty
      · rw [if_pos ha, ih [] ht]
        simp [ha]
      · rw [if_neg ha, ih [] ht]
        simp [ha]

theorem splitWsAux_append_space (s post acc : List Nat)
    (hp : ∀ c ∈ post, isJsSpace c = true) :
    splitWsAux (s ++ post) acc = splitWsAux s acc := by
  induction s generalizing acc with
  | nil =>
      simp only [List.nil_append]
      rw [splitWsAux_all_space post acc hp]
      rfl
  | cons c t ih =>
      by_cases hc : isJsSpace c = true
      · simp only [List.cons_append, splitWsAux, hc, if_true, List.append_eq]
        by_cases ha : acc.isEmpty
        · rw [if_pos ha, if_pos ha]
          exact ih []
        · rw [if_neg ha, if_neg ha]
          exact congrArg (fun x => acc.reverse :: x) (ih [])
      · simp only [List.cons_append, splitWsAux, hc, Bool.false_eq_true, if_false,
        List.append_eq]
        exact ih _

theorem splitWsAux_leading_space (pre s : List Nat) (hp : ∀ c ∈ pre, isJsSpace c = true) :
    splitWsAux (pre ++ s) [] = splitWsAux s [] := by
  induction pre with
  | nil => rfl
  | cons c t ih =>
      have hc : isJsSpace c = true := hp c (by simp)
      simp only [List.cons_append, splitWsAux, hc, if_true, List.isEmpty_nil, if_true]
      exact ih fun d hd => hp d (by simp [hd])

theorem splitWsAux_dup_space (c : Nat) (hc : isJsSpace c = true) (u v acc : List Nat) :
    splitWsAux (u ++ c :: c :: v) acc = splitWsAux (u ++ c :: v) acc := by
  induction u generalizing acc with
  | nil =>
      simp only [List.nil_append, splitWsAux, hc, if_true, List.isEmpty_nil]
  | cons d t ih =>
      by_cases hd : isJsSpace d = true
      · simp only [List.cons_append, splitWsAux, hd, if_true, List.append_eq]
        by_cases ha : acc.isEmpty
        · rw [if_pos ha, if_pos ha]
          exact ih []
        · rw [if_neg ha, if_neg ha]
          exact congrArg (fun x => acc.reverse :: x) (ih [])
      · simp only [List.cons_append, splitWsAux, hd, Bool.false_eq_true, if_false,
        List.append_eq]
        exact ih _

/-- A well-formed mnemonic word: nonempty, free of whitespace, fixed by
lower-casing. -/
def GoodWord (w : List Nat) : Prop :=
  w ≠ [] ∧ ∀ c ∈ w, isJsSpace c = false ∧ jsToLower c = c

theorem jsToLower_of_space {c : Nat} (hc : isJsSpace c = true) : jsToLower c = c := by
  unfold isJsSpace at hc
  unfold jsToLower
  rw [if_neg]
  intro h
  rcases h with ⟨h1, h2⟩
  simp only [decide_eq_true_eq] at hc
  omega

theorem map_id_of_fixed {l : List Nat} {f : Nat → Nat} (h : ∀ c ∈ l, f c = c) :
    l.map f = l := by
  induction l with
  | nil => rfl
  | cons c t ih => simp only [List.map_cons, h c (by simp), ih fun d hd => h d (by simp [hd])]

theorem isEmpty_false_of_ne_nil {l : List Nat} (h : l ≠ []) : l.isEmpty = false := by
  cases l with
  | nil => exact absurd rfl h
  | cons a t => rfl

theorem mem_intersperse {sep : List Nat} {l : List (List Nat)} {x : List Nat}
    (h : x ∈ l.intersperse sep) : x ∈ l ∨ x = sep := by
  induction l with
  | nil => simp at h
  | cons a t ih =>
      cases t with
      | nil =>
          rw [List.intersperse_singleton] at h
          simp at h
          simp [h]
      | cons b t2 =>
          rw [List.intersperse_cons_cons] at h
          simp only [List.mem_cons] at h
          rcases h with rfl | rfl | hm
          · exact Or.inl (by simp)
          · exact Or.inr rfl
          · rcases ih (by simpa using hm) with hl | hr
            · exact Or.inl (by simp [hl])
            · exact Or.inr hr

theorem splitWsAux_joinWords (ws : List (List Nat)) (hws : ∀ w ∈ ws, GoodWord w) :
    splitWsAux (joinWords ws) [] = ws := by
  induction ws with
  | nil => rfl
  | cons w t ih =>
      have hgw : GoodWord w := hws w (by simp)
      have hnsp : ∀ c ∈ w, isJsSpace c = false := fun c hc => (hgw.2 c hc).1
      cases t with
      | nil =>
          show splitWsAux (w ++ []) [] = [w]
          rw [splitWsAux_word w [] [] hnsp]
          show (if (w.reverse ++ []).isEmpty then [] else [(w.reverse ++ []).reverse]) = [w]
          have hne : (w.reverse ++ []).isEmpty = false := by
            apply isEmpty_false_of_ne_nil
            simp [hgw.1]
          rw [hne]
          simp
      | cons w2 t2 =>
          have hjoin : joinWords (w :: w2 :: t2) = w ++ 0x20 :: joinWords (w2 :: t2) := by
            simp [joinWords, List.intersperse_cons_cons]
          rw [hjoin]
          rw [splitWsAux_word w _ [] hnsp]
          show splitWsAux (0x20 :: joinWords (w2 :: t2)) (w.reverse ++ []) = w :: w2 :: t2
          have hsp : isJsSpace 0x20 = true := by decide
          simp only [splitWsAux, hsp, if_true]
          have hne : (w.reverse ++ []).isEmpty = false := by
            apply isEmpty_false_of_ne_nil
            simp [hgw.1]
          rw [hne]
          simp only [Bool.false_eq_true, if_false, List.append_nil, List.reverse_reverse]
          have ihx := ih fun v hv => hws v (by simp [hv])
          rw [ihx]

theorem tokenize_joinWords (ws : List (List Nat)) (hws : ∀ w ∈ ws, GoodWord w) :
    tokenize (joinWords ws) = ws := by
  have hfix : ∀ c ∈ joinWords ws, jsToLower c = c := by
    intro c hc
    unfold joinWords at hc
    rcases List.mem_flatten.mp hc with ⟨w, hw, hcw⟩
    rcases mem_intersperse hw with hmem | hsep
    · exact ((hws w hmem).2 c hcw).2
    · subst hsep
      simp only [List.mem_singleton] at hcw
      subst hcw
      rfl
  unfold tokenize
  rw [map_id_of_fixed hfix]
  exact splitWsAux_joinWords ws hws

/-! ### Word-index and group-coding lemmas -/

theorem jsIndexOf_go_shift (w : List Nat) (l : List (List Nat)) (k : Nat) :
    jsIndexOf.go w l k = (jsIndexOf.go w l 0).map (fun j => j + k) := by
  induction l generalizing k with
  | nil => rfl
  | cons x xs ih =>
      by_cases hx : x = w
      · simp [jsIndexOf.go, hx]
      · simp only [jsIndexOf.go, hx, if_false, ih (k + 1), ih 1, Option.map_map]
        cases jsIndexOf.go w xs 0 with
        | none => rfl
        | some j => simp; omega

theorem jsIndexOf_get_of_nodup (l : List (List Nat)) (hnd : l.Nodup) (i : Nat)
    (hi : i < l.length) : jsIndexOf l (l.get ⟨i, hi⟩) = some i := by
  induction l generalizing i with
  | nil => simp at hi
  | cons x xs ih =>
      cases i with
      | zero => simp [jsIndexOf, jsIndexOf.go]
      | succ j =>
          have hj : j < xs.length := by simpa using hi
          have hget : (x :: xs).get ⟨j + 1, hi⟩ = xs.get ⟨j, hj⟩ := rfl
          have hxne : x ≠ (x :: xs).get ⟨j + 1, hi⟩ := by
            rw [hget]
            intro hx
            exact (List.nodup_cons.mp hnd).1 (hx ▸ xs.get_mem j hj)
          show jsIndexOf.go ((x :: xs).get ⟨j + 1, hi⟩) (x :: xs) 0 = some (j + 1)
          simp only [jsIndexOf.go, hxne, if_false]
          rw [jsIndexOf_go_shift]
          have := ih (List.nodup_cons.mp hnd).2 j hj
          rw [hget]
          rw [show jsIndexOf.go (xs.get ⟨j, hj⟩) xs 0 = some j from this]
          rfl

theorem jsIndexOf_some (l : List (List Nat)) (w : List Nat) (i : Nat)
    (h : jsIndexOf l w = some i) : i < l.length ∧ l.getD i [] = w := by
  suffices hgo : ∀ (xs : List (List Nat)) (j : Nat), jsIndexOf.go w xs 0 = some j →
      j < xs.length ∧ xs.getD j [] = w by
    exact hgo l i h
  intro xs
  induction xs with
  | nil => intro j hj; exact absurd hj (by simp [jsIndexOf.go])
  | cons x t ih =>
      intro j hj
      by_cases hx : x = w
      · simp only [jsIndexOf.go, hx, if_true] at hj
        cases hj
        exact ⟨by simp, by simpa using hx⟩
      · simp only [jsIndexOf.go, hx, if_false] at hj
        rw [jsIndexOf_go_shift] at hj
        cases hg : jsIndexOf.go w t 0 with
        | none => rw [hg] at hj; exact absurd hj (by simp)
        | some j0 =>
            rw [hg] at hj
            have hj2 : j0 + 1 = j := Option.some.inj hj
            subst hj2
            rcases ih j0 hg with ⟨hlt, hget⟩
            exact ⟨by simpa using Nat.succ_lt_succ hlt, by simpa using hget⟩

theorem getD_map_lt (f : Nat → List Nat) (is : List Nat) (i : Nat) (hi : i < is.length) :
    (is.map f).getD i [] = f (is.getD i 0) := by
  induction is generalizing i with
  | nil => simp at hi
  | cons a t ih =>
      cases i with
      | zero => rfl
      | succ j => exact ih j (by simpa using hi)

theorem getD_mem_of_lt (l : List (List Nat)) (i : Nat) (hi : i < l.length) :
    l.getD i [] ∈ l := by
  induction l generalizing i with
  | nil => simp at hi
  | cons a t ih =>
      cases i with
      | zero => simp
      | succ j => exact List.mem_cons_of_mem a (ih j (by simpa using hi))

theorem wordsToIndices_map_getD (l : List (List Nat)) (hnd : l.Nodup) (is : List Nat)
    (hb : ∀ i ∈ is, i < l.length) :
    wordsToIndices l (is.map (fun i => l.getD i [])) = some is := by
  induction is with
  | nil => rfl
  | cons i t ih =>
      have hi : i < l.length := hb i (by simp)
      have hgd : l.getD i [] = l.get ⟨i, hi⟩ := by
        simp [List.getD_eq_getElem?_getD, List.getElem?_eq_getElem hi]
      simp only [List.map_cons, wordsToIndices]
      rw [hgd, jsIndexOf_get_of_nodup l hnd i hi,
        ih fun j hj => hb j (by simp [hj])]

theorem decodeGroup_encodeGroup (b0 b1 b2 b3 w1 w2 w3 : Nat) (h0 : b0 < 256)
    (h1 : b1 < 256) (h2 : b2 < 256) (h3 : b3 < 256)
    (henc : encodeGroup b0 b1 b2 b3 = [w1, w2, w3]) :
    decodeGroup w1 w2 w3 = some [b0, b1, b2, b3] := by
  have hw : w1 = (b0 + 256 * b1 + 65536 * b2 + 16777216 * b3) % 1626 ∧
      w2 = ((b0 + 256 * b1 + 65536 * b2 + 16777216 * b3) / 1626 +
        (b0 + 256 * b1 + 65536 * b2 + 16777216 * b3) % 1626) % 1626 ∧
      w3 = ((b0 + 256 * b1 + 65536 * b2 + 16777216 * b3) / 1626 / 1626 +
        ((b0 + 256 * b1 + 65536 * b2 + 16777216 * b3) / 1626 +
          (b0 + 256 * b1 + 65536 * b2 + 16777216 * b3) % 1626) % 1626) % 1626 := by
    have h := henc
    unfold encodeGroup at h
    simp only [List.cons.injEq, and_true] at h
    exact ⟨h.1.symm, h.2.1.symm, h.2.2.symm⟩
  obtain ⟨hw1, hw2, hw3⟩ := hw
  unfold decodeGroup WORD_LIST_SIZE
  subst hw1 hw2 hw3
  rw [if_neg (by omega)]
  congr 1
  have hval : ∀ v : Nat, v < 4294967296 →
      v % 1626 + 1626 * ((1626 - v % 1626 + (v / 1626 + v % 1626) % 1626) % 1626) +
        1626 * 1626 *
          ((1626 - (v / 1626 + v % 1626) % 1626 +
            (v / 1626 / 1626 + (v / 1626 + v % 1626) % 1626) % 1626) % 1626) = v := by
    intro v hv
    have ha : v % 1626 < 1626 := Nat.mod_lt _ (by omega)
    have hq2 : v / 1626 / 1626 < 1626 := by omega
    have hstep1 : (1626 - v % 1626 + (v / 1626 + v % 1626) % 1626) % 1626
        = v / 1626 % 1626 := by omega
    have hstep2 : (1626 - (v / 1626 + v % 1626) % 1626 +
        (v / 1626 / 1626 + (v / 1626 + v % 1626) % 1626) % 1626) % 1626
        = v / 1626 / 1626 := by omega
    rw [hstep1, hstep2]
    omega
  have hv : b0 + 256 * b1 + 65536 * b2 + 16777216 * b3 < 4294967296 := by omega
  rw [hval _ hv]
  simp only [List.cons.injEq, and_true]
  omega

/-- The index stream behind `seedWordsAux`: the 3-word index groups of the
encode loop, before the word-list lookup. -/
def seedIndices : List Nat → List Nat
  | b0 :: b1 :: b2 :: b3 :: rest => encodeGroup b0 b1 b2 b3 ++ seedIndices rest
  | _ => []

theorem seedWordsAux_eq_map (l : List (List Nat)) :
    ∀ s, seedWordsAux l s = (seedIndices s).map (fun i => l.getD i [])
  | b0 :: b1 :: b2 :: b3 :: rest => by
      show (encodeGroup b0 b1 b2 b3).map (fun i => l.getD i []) ++ seedWordsAux l rest
          = (encodeGroup b0 b1 b2 b3 ++ seedIndices rest).map (fun i => l.getD i [])
      rw [List.map_append, seedWordsAux_eq_map l rest]
  | [] => rfl
  | [_] => rfl
  | [_, _] => rfl
  | [_, _, _] => rfl

theorem seedIndices_length :
    ∀ s : List Nat, s.length % 4 = 0 → (seedIndices s).length = 3 * (s.length / 4)
  | b0 :: b1 :: b2 :: b3 :: rest => by
      intro hlen
      show ((encodeGroup b0 b1 b2 b3) ++ seedIndices rest).length = _
      rw [List.length_append,
        seedIndices_length rest (by simp only [List.length_cons] at hlen; omega)]
      show 3 + 3 * (rest.length / 4) = 3 * ((rest.length + 4) / 4)
      omega
  | [] => fun _ => rfl
  | [_] => by intro h; simp at h
  | [_, _] => by intro h; simp at h
  | [_, _, _] => by intro h; simp at h

theorem seedIndices_lt :
    ∀ s : List Nat, ∀ i ∈ seedIndices s, i < 1626
  | b0 :: b1 :: b2 :: b3 :: rest => by
      intro i hi
      rcases List.mem_append.mp hi with hg | hr
      · obtain ⟨x, y, z, he⟩ : ∃ x y z,
            encodeGroup b0 b1 b2 b3 = [x % 1626, y % 1626, z % 1626] := ⟨_, _, _, rfl⟩
        rw [he] at hg
        simp only [List.mem_cons, List.mem_singleton, List.not_mem_nil, or_false] at hg
        rcases hg with rfl | rfl | rfl <;> exact Nat.mod_lt _ (by omega)
      · exact seedIndices_lt rest i hr
  | [] => by intro i hi; simp [seedIndices] at hi
  | [_] => by intro i hi; simp [seedIndices] at hi
  | [_, _] => by intro i hi; simp [seedIndices] at hi
  | [_, _, _] => by intro i hi; simp [seedIndices] at hi

theorem decodeGroups_seedIndices :
    ∀ s : List Nat, s.length % 4 = 0 → (∀ b ∈ s, b < 256) →
      decodeGroups (seedIndices s) = some s
  | b0 :: b1 :: b2 :: b3 :: rest => by
    intro hlen hb
    obtain ⟨e1, e2, e3, henc⟩ : ∃ e1 e2 e3,
        encodeGroup b0 b1 b2 b3 = [e1, e2, e3] := ⟨_, _, _, rfl⟩
    have hg : decodeGroup e1 e2 e3 = some [b0, b1, b2, b3] :=
      decodeGroup_encodeGroup b0 b1 b2 b3 e1 e2 e3
        (hb b0 (by simp)) (hb b1 (by simp)) (hb b2 (by simp)) (hb b3 (by simp)) henc
    have hrest := decodeGroups_seedIndices rest
      (by simp only [List.length_cons] at hlen; omega)
      (fun b hbm => hb b (by simp [hbm]))
    show decodeGroups (encodeGroup b0 b1 b2 b3 ++ seedIndices rest) = _
    rw [henc]
    show decodeGroups (e1 :: e2 :: e3 :: seedIndices rest) = _
    simp only [decodeGroups, hg, hrest]
    rfl
  | [] => by intro _ _; rfl
  | [_] => by intro h; simp at h
  | [_, _] => by intro h _; simp at h
  | [_, _, _] => by intro h _; simp at h

theorem getD_append_left {α : Type} (l1 l2 : List α) (d : α) (i : Nat)
    (h : i < l1.length) : (l1 ++ l2).getD i d = l1.getD i d := by
  induction l1 generalizing i with
  | nil => simp at h
  | cons a t ih =>
      cases i with
      | zero => rfl
      | succ j => exact ih j (by simpa using h)

theorem getD_append_right_len {α : Type} (l1 l2 : List α) (d : α) :
    (l1 ++ l2).getD l1.length d = l2.getD 0 d := by
  induction l1 with
  | nil => rfl
  | cons a t ih => simpa using ih

theorem getD_mem_lt {α : Type} (l : List α) (d : α) (i : Nat) (hi : i < l.length) :
    l.getD i d ∈ l := by
  induction l generalizing i with
  | nil => simp at hi
  | cons a t ih =>
      cases i with
      | zero => simp
      | succ j => exact List.mem_cons_of_mem a (ih j (by simpa using hi))

theorem mnemonicToSeedTokens_eq (L : MnemonicLanguage) (words : List (List Nat))
    (indices : List Nat) (h25 : words.length = 25)
    (hidx : wordsToIndices L.words words = some indices)
    (hchk : prefixOf L.effPrefixLength
        (words.getD
          (crc32 (((words.take 24).map (prefixOf L.effPrefixLength)).flatten) % 24) [])
      = prefixOf L.effPrefixLength (words.getD 24 [])) :
    mnemonicToSeedTokens L words = decodeGroups (indices.take 24) := by
  unfold mnemonicToSeedTokens
  rw [if_neg (by omega), hidx]
  show (if prefixOf L.effPrefixLength
        (words.getD
          (crc32 (((words.take 24).map (prefixOf L.effPrefixLength)).flatten) % 24) [])
      ≠ prefixOf L.effPrefixLength (words.getD 24 []) then none
    else decodeGroups (indices.take 24)) = decodeGroups (indices.take 24)
  rw [if_neg (fun hne => hne hchk)]

theorem mnemonicToSeedTokens_none (L : MnemonicLanguage) (words : List (List Nat))
    (indices : List Nat) (h25 : words.length = 25)
    (hidx : wordsToIndices L.words words = some indices)
    (hchk : prefixOf L.effPrefixLength
        (words.getD
          (crc32 (((words.take 24).map (prefixOf L.effPrefixLength)).flatten) % 24) [])
      ≠ prefixOf L.effPrefixLength (words.getD 24 [])) :
    mnemonicToSeedTokens L words = none := by
  unfold mnemonicToSeedTokens
  rw [if_neg (by omega), hidx]
  show (if prefixOf L.effPrefixLength
        (words.getD
          (crc32 (((words.take 24).map (prefixOf L.effPrefixLength)).flatten) % 24) [])
      ≠ prefixOf L.effPrefixLength (words.getD 24 []) then none
    else decodeGroups (indices.take 24)) = none
  rw [if_pos hchk]

theorem forall₂_lower_map {m₁ m₂ : List Nat}
    (h : List.Forall₂ (fun a b => jsToLower a = jsToLower b) m₁ m₂) :
    m₁.map jsToLower = m₂.map jsToLower := by
  induction h with
  | nil => rfl
  | cons ha _ ih => simp only [List.map_cons, ha, ih]

theorem decode_joined (L : MnemonicLanguage) (hnd : L.words.Nodup)
    (ws : List (List Nat)) (I : List Nat) (seed : List Nat)
    (hwm : ws = I.map (fun i => L.words.getD i []))
    (hIlen : I.length = 24)
    (hIlt : ∀ i ∈ I, i < L.words.length)
    (hgood : ∀ w ∈ ws, GoodWord w)
    (hdec : decodeGroups I = some seed) :
    mnemonicToSeed L (joinWords (ws ++
      [ws.getD (crc32 ((ws.map (prefixOf L.effPrefixLength)).flatten) % 24) []]))
      = some seed := by
  set ci := crc32 ((ws.map (prefixOf L.effPrefixLength)).flatten) % 24 with hci
  set cw := ws.getD ci [] with hcwdef
  have hwsl : ws.length = 24 := by rw [hwm, List.length_map, hIlen]
  have hci24 : ci < 24 := by rw [hci]; exact Nat.mod_lt _ (by omega)
  have hcw_mem : cw ∈ ws := by
    rw [hcwdef]
    exact getD_mem_lt ws [] ci (by rw [hwsl]; exact hci24)
  have htok : tokenize (joinWords (ws ++ [cw])) = ws ++ [cw] := by
    apply tokenize_joinWords
    intro w hw
    rcases List.mem_append.mp hw with hl | hr
    · exact hgood w hl
    · rw [List.mem_singleton.mp hr]
      exact hgood cw hcw_mem
  have hcw_eq : cw = L.words.getD (I.getD ci 0) [] := by
    rw [hcwdef]
    conv_lhs => rw [hwm]
    exact getD_map_lt _ I ci (by rw [hIlen]; exact hci24)
  have hidx : wordsToIndices L.words (ws ++ [cw]) = some (I ++ [I.getD ci 0]) := by
    have hrw : ws ++ [cw] = (I ++ [I.getD ci 0]).map (fun i => L.words.getD i []) := by
      rw [List.map_append, ← hwm, hcw_eq]
      rfl
    rw [hrw]
    apply wordsToIndices_map_getD L.words hnd
    intro i hi
    rcases List.mem_append.mp hi with hl | hr
    · exact hIlt i hl
    · rw [List.mem_singleton.mp hr]
      exact hIlt _ (getD_mem_lt I 0 ci (by rw [hIlen]; exact hci24))
  have h25 : (ws ++ [cw]).length = 25 := by
    rw [List.length_append, hwsl]
    rfl
  have htake : (ws ++ [cw]).take 24 = ws := by
    have h := List.take_left ws [cw]
    rw [hwsl] at h
    exact h
  have hItake : (I ++ [I.getD ci 0]).take 24 = I := by
    have h := List.take_left I [I.getD ci 0]
    rw [hIlen] at h
    exact h
  have hget_ci : (ws ++ [cw]).getD ci [] = cw :=
    getD_append_left ws [cw] [] ci (by rw [hwsl]; exact hci24)
  have hget_24 : (ws ++ [cw]).getD 24 [] = cw := by
    have h := getD_append_right_len ws [cw] []
    rw [hwsl] at h
    exact h
  show mnemonicToSeed L (joinWords (ws ++ [cw])) = some seed
  unfold mnemonicToSeed
  rw [htok]
  rw [mnemonicToSeedTokens_eq L (ws ++ [cw]) (I ++ [I.getD ci 0]) h25 hidx ?chk]
  case chk =>
    rw [htake, ← hci, hget_ci, hget_24]
  rw [hItake]
  exact hdec

/-- C5: For every 32-byte seed `s` and every supported word list `L`
(1626 pairwise-distinct, nonempty, lower-case, whitespace-free words),
`mnemonicToSeed(seedToMnemonic(s, L), {language: L})` succeeds with a seed
byte-for-byte equal to `s`; and the result of `mnemonicToSeed` is
unchanged under any edit of the mnemonic string that preserves its token
stream — in particular under changing letter case and under extra
surrounding or repeated whitespace. -/
theorem claim_C5_mnemonic_roundtrip (L : MnemonicLanguage)
    (hlen : L.words.length = 1626) (hnd : L.words.Nodup)
    (hwf : ∀ w ∈ L.words, GoodWord w) :
    (∀ s : List Nat, s.length = 32 → (∀ b ∈ s, b < 256) →
      ∃ m, seedToMnemonic L s = some m ∧ mnemonicToSeed L m = some s) ∧
    (∀ m₁ m₂ : List Nat, tokenize m₁ = tokenize m₂ →
      mnemonicToSeed L m₁ = mnemonicToSeed L m₂) ∧
    (∀ m₁ m₂ : List Nat, List.Forall₂ (fun a b => jsToLower a = jsToLower b) m₁ m₂ →
      mnemonicToSeed L m₁ = mnemonicToSeed L m₂) ∧
    (∀ pre post m : List Nat, (∀ c ∈ pre, isJsSpace c = true) →
      (∀ c ∈ post, isJsSpace c = true) →
      mnemonicToSeed L (pre ++ m ++ post) = mnemonicToSeed L m) ∧
    (∀ (u v : List Nat) (c : Nat), isJsSpace c = true →
      mnemonicToSeed L (u ++ c :: c :: v) = mnemonicToSeed L (u ++ c :: v)) := by
  refine ⟨?_, ?_, ?_, ?_, ?_⟩
  · intro s hs32 hsb
    have hlen4 : s.length % 4 = 0 := by omega
    have hwm : seedWordsAux L.words s
        = (seedIndices s).map (fun i => L.words.getD i []) := seedWordsAux_eq_map _ s
    have hIlen : (seedIndices s).length = 24 := by
      rw [seedIndices_length s hlen4, hs32]
    have hgood : ∀ w ∈ seedWordsAux L.words s, GoodWord w := by
      intro w hw
      rw [hwm] at hw
      rcases List.mem_map.mp hw with ⟨i, hi, rfl⟩
      exact hwf _ (getD_mem_lt _ [] i (by rw [hlen]; exact seedIndices_lt s i hi))
    refine ⟨joinWords (seedWordsAux L.words s ++
        [(seedWordsAux L.words s).getD
          (crc32 (((seedWordsAux L.words s).map (prefixOf L.effPrefixLength)).flatten)
            % 24) []]), ?_, ?_⟩
    · unfold seedToMnemonic
      rw [if_neg (by omega)]
    · exact decode_joined L hnd (seedWordsAux L.words s) (seedIndices s) s hwm hIlen
        (fun i hi => by rw [hlen]; exact seedIndices_lt s i hi) hgood
        (decodeGroups_seedIndices s hlen4 hsb)
  · intro m₁ m₂ h
    unfold mnemonicToSeed
    rw [show tokenize m₁ = tokenize m₂ from h]
  · intro m₁ m₂ h
    unfold mnemonicToSeed tokenize
    rw [forall₂_lower_map h]
  · intro pre post m hpre hpost
    unfold mnemonicToSeed tokenize
    rw [List.map_append, List.map_append]
    rw [splitWsAux_append_space (pre.map jsToLower ++ m.map jsToLower)
      (post.map jsToLower) []
      (by
        intro c hc
        rcases List.mem_map.mp hc with ⟨c0, hc0, rfl⟩
        rw [jsToLower_of_space (hpost c0 hc0)]
        exact hpost c0 hc0)]
    rw [splitWsAux_leading_space (pre.map jsToLower) (m.map jsToLower)
      (by
        intro c hc
        rcases List.mem_map.mp hc with ⟨c0, hc0, rfl⟩
        rw [jsToLower_of_space (hpre c0 hc0)]
        exact hpre c0 hc0)]
  · intro u v c hc
    unfold mnemonicToSeed tokenize
    rw [List.map_append, List.map_append, List.map_cons, List.map_cons,
      jsToLower_of_space hc]
    exact congrArg (mnemonicToSeedTokens L) (splitWsAux_dup_space c hc _ _ [])

/-- A concrete well-formed 1626-word list (three-letter lower-case words)
used to instantiate the mnemonic theorems; such an object is a legitimate
`options.language` input of mnemonic.js. -/
def mnemonicWordOfNat (n : Nat) : List Nat :=
  [97 + n / 676 % 26, 97 + n / 26 % 26, 97 + n % 26]

/-- The demo word list: `mnemonicWordOfNat` over `0..1625`. -/
def demoWordList : List (List Nat) :=
  (List.range 1626).map mnemonicWordOfNat

/-- The demo language object (prefix length 3, as English uses). -/
def demoLanguage : MnemonicLanguage :=
  { words := demoWordList, prefixLength := 3 }

theorem demoWordList_length : demoWordList.length = 1626 := by
  simp [demoWordList]

theorem demoWordList_nodup : demoWordList.Nodup := by
  apply List.Nodup.map_on
  · intro x hx y hy hf
    have hx1626 : x < 1626 := List.mem_range.mp hx
    have hy1626 : y < 1626 := List.mem_range.mp hy
    unfold mnemonicWordOfNat at hf
    simp only [List.cons.injEq, and_true] at hf
    omega
  · exact List.nodup_range 1626

theorem lower_letter_good (c : Nat) (h1 : 97 ≤ c) (h2 : c ≤ 122) :
    isJsSpace c = false ∧ jsToLower c = c := by
  constructor
  · unfold isJsSpace
    rw [decide_eq_false]
    intro h
    omega
  · unfold jsToLower
    rw [if_neg]
    omega

theorem demoWordList_good : ∀ w ∈ demoWordList, GoodWord w := by
  intro w hw
  rcases List.mem_map.mp hw with ⟨n, _, rfl⟩
  refine ⟨by simp [mnemonicWordOfNat], ?_⟩
  intro c hc
  unfold mnemonicWordOfNat at hc
  simp only [List.mem_cons, List.mem_singleton, List.not_mem_nil, or_false] at hc
  have h26a : n / 676 % 26 < 26 := Nat.mod_lt _ (by omega)
  have h26b : n / 26 % 26 < 26 := Nat.mod_lt _ (by omega)
  have h26c : n % 26 < 26 := Nat.mod_lt _ (by omega)
  rcases hc with rfl | rfl | rfl <;> exact lower_letter_good _ (by omega) (by omega)

/-- Witness for C5: the round trip at a concrete 32-byte seed and the demo
word list. -/
theorem claim_C5_witness :
    ∃ m, seedToMnemonic demoLanguage (List.replicate 32 7) = some m ∧
      mnemonicToSeed demoLanguage m = some (List.replicate 32 7) :=
  (claim_C5_mnemonic_roundtrip demoLanguage demoWordList_length demoWordList_nodup
    demoWordList_good).1 (List.replicate 32 7) (by decide) (by decide)

theorem wordsToIndices_length (l : List (List Nat)) :
    ∀ ws is, wordsToIndices l ws = some is → is.length = ws.length := by
  intro ws
  induction ws with
  | nil => intro is h; cases h; rfl
  | cons w t ih =>
      intro is h
      unfold wordsToIndices at h
      cases hj : jsIndexOf l w with
      | none => rw [hj] at h; exact absurd h (by simp)
      | some i =>
          rw [hj] at h
          cases hr : wordsToIndices l t with
          | none => rw [hr] at h; exact absurd h (by simp)
          | some is0 =>
              rw [hr] at h
              cases h
              simp [ih is0 hr]

theorem wordsToIndices_take (l : List (List Nat)) :
    ∀ ws is n, wordsToIndices l ws = some is →
      wordsToIndices l (ws.take n) = some (is.take n) := by
  intro ws
  induction ws with
  | nil => intro is n h; cases h; simp [wordsToIndices]
  | cons w t ih =>
      intro is n h
      unfold wordsToIndices at h
      cases hj : jsIndexOf l w with
      | none => rw [hj] at h; exact absurd h (by simp)
      | some i =>
          rw [hj] at h
          cases hr : wordsToIndices l t with
          | none => rw [hr] at h; exact absurd h (by simp)
          | some is0 =>
              rw [hr] at h
              cases h
              cases n with
              | zero => rfl
              | succ n0 =>
                  simp only [List.take_succ_cons]
                  unfold wordsToIndices
                  rw [hj, ih is0 n0 hr]

theorem wordsToIndices_isSome (l : List (List Nat)) :
    ∀ ws, (∀ w ∈ ws, (jsIndexOf l w).isSome) →
      ∃ is, wordsToIndices l ws = some is ∧ ∀ i ∈ is, i < l.length := by
  intro ws
  induction ws with
  | nil => intro _; exact ⟨[], rfl, by simp⟩
  | cons w t ih =>
      intro hall
      rcases Option.isSome_iff_exists.mp (hall w (by simp)) with ⟨i, hi⟩
      rcases ih (fun v hv => hall v (by simp [hv])) with ⟨is0, his0, hb⟩
      refine ⟨i :: is0, ?_, ?_⟩
      · unfold wordsToIndices
        rw [hi, his0]
      · intro j hj
        rcases List.mem_cons.mp hj with rfl | hm
        · exact (jsIndexOf_some l w j hi).1
        · exact hb j hm

theorem decodeGroups_isSome :
    ∀ is : List Nat, is.length % 3 = 0 → (∀ i ∈ is, i < 1626) →
      (decodeGroups is).isSome
  | w1 :: w2 :: w3 :: rest => by
      intro hlen hb
      have h1 : w1 < 1626 := hb w1 (by simp)
      have hg : ∃ bs, decodeGroup w1 w2 w3 = some bs := by
        unfold decodeGroup WORD_LIST_SIZE
        rw [if_neg (by omega)]
        exact ⟨_, rfl⟩
      rcases hg with ⟨bs, hbs⟩
      have hrest := decodeGroups_isSome rest
        (by simp only [List.length_cons] at hlen; omega)
        (fun i hi => hb i (by simp [hi]))
      rcases Option.isSome_iff_exists.mp hrest with ⟨brest, hbrest⟩
      unfold decodeGroups
      rw [hbs, hbrest]
      rfl
  | [] => by intro _ _; rfl
  | [_] => by intro h _; simp at h
  | [_, _] => by intro h _; simp at h

/-- The claim's checksum condition, from its words: the prefix of word 25
equals the prefix of the word at index `CRC32(prefixes) mod 24`. -/
def checksumPrefixOk (L : MnemonicLanguage) (tokens : List (List Nat)) : Prop :=
  prefixOf L.effPrefixLength (tokens.getD
      (crc32 (((tokens.take 24).map (prefixOf L.effPrefixLength)).flatten) % 24) [])
    = prefixOf L.effPrefixLength (tokens.getD 24 [])

instance (L : MnemonicLanguage) (ts : List (List Nat)) :
    Decidable (checksumPrefixOk L ts) := by
  unfold checksumPrefixOk
  infer_instance

/-- C10 (amended): `mnemonicToSeed` checks the 25th word only by its first
`prefixLength` characters — for every 25-word mnemonic all of whose words
are in the (at most 1626-word) word list, the mnemonic is accepted exactly
when the prefix of word 25 equals the prefix of the word at index
`CRC32(prefixes) mod 24`; and the returned seed depends only on the first
24 words, never on word 25. -/
theorem claim_C10_checksum_rule (L : MnemonicLanguage)
    (hlen : L.words.length ≤ 1626) (m : List Nat)
    (h25 : (tokenize m).length = 25)
    (hvalid : ∀ w ∈ tokenize m, (jsIndexOf L.words w).isSome) :
    ((mnemonicToSeed L m).isSome ↔ checksumPrefixOk L (tokenize m)) ∧
    (∀ m₂ : List Nat, (tokenize m₂).length = 25 →
      (∀ w ∈ tokenize m₂, (jsIndexOf L.words w).isSome) →
      (tokenize m₂).take 24 = (tokenize m).take 24 →
      (mnemonicToSeed L m).isSome → (mnemonicToSeed L m₂).isSome →
      mnemonicToSeed L m₂ = mnemonicToSeed L m) := by
  rcases wordsToIndices_isSome L.words (tokenize m) hvalid with ⟨is, his, hisb⟩
  have hres := fun hchk => mnemonicToSeedTokens_eq L (tokenize m) is h25 his hchk
  unfold checksumPrefixOk
  constructor
  · constructor
    · intro hsome
      by_contra hne
      have := mnemonicToSeedTokens_none L (tokenize m) is h25 his hne
      unfold mnemonicToSeed at hsome
      rw [this] at hsome
      exact absurd hsome (by simp)
    · intro hchk
      show (mnemonicToSeedTokens L (tokenize m)).isSome
      rw [hres hchk]
      apply decodeGroups_isSome
      · have hl : is.length = 25 := by
          rw [wordsToIndices_length L.words _ _ his, h25]
        rw [List.length_take, hl]
        decide
      · intro i hi
        have := hisb i (List.mem_of_mem_take hi)
        omega
  · intro m₂ h25b hvalid2 htake hs1 hs2
    rcases wordsToIndices_isSome L.words (tokenize m₂) hvalid2 with ⟨is2, his2, _⟩
    have hchk1 : prefixOf L.effPrefixLength ((tokenize m).getD
        (crc32 ((((tokenize m).take 24).map (prefixOf L.effPrefixLength)).flatten)
          % 24) [])
        = prefixOf L.effPrefixLength ((tokenize m).getD 24 []) := by
      by_contra hne
      have := mnemonicToSeedTokens_none L (tokenize m) is h25 his hne
      unfold mnemonicToSeed at hs1
      rw [this] at hs1
      exact absurd hs1 (by simp)
    have hchk2 : prefixOf L.effPrefixLength ((tokenize m₂).getD
        (crc32 ((((tokenize m₂).take 24).map (prefixOf L.effPrefixLength)).flatten)
          % 24) [])
        = prefixOf L.effPrefixLength ((tokenize m₂).getD 24 []) := by
      by_contra hne
      have := mnemonicToSeedTokens_none L (tokenize m₂) is2 h25b his2 hne
      unfold mnemonicToSeed at hs2
      rw [this] at hs2
      exact absurd hs2 (by simp)
    have e1 : mnemonicToSeed L m = decodeGroups (is.take 24) := hres hchk1
    have e2 : mnemonicToSeed L m₂ = decodeGroups (is2.take 24) :=
      mnemonicToSeedTokens_eq L (tokenize m₂) is2 h25b his2 hchk2
    have htk1 : wordsToIndices L.words ((tokenize m).take 24) = some (is.take 24) :=
      wordsToIndices_take L.words _ is 24 his
    have htk2 : wordsToIndices L.words ((tokenize m₂).take 24) = some (is2.take 24) :=
      wordsToIndices_take L.words _ is2 24 his2
    rw [htake] at htk2
    rw [htk1] at htk2
    rw [e1, e2, Option.some.inj htk2]

/-- The 24 data words of the C10 counterexample: demo-list words 0–23. -/
def c10First24 : List (List Nat) :=
  (List.range 24).map mnemonicWordOfNat

/-- The 25th word of the C10 counterexample: the word the checksum rule
points at, extended by an extra letter `x` — its 3-character prefix
matches, but the word itself is not in the word list. -/
def c10Word25 : List Nat :=
  mnemonicWordOfNat (crc32 ((c10First24.map (prefixOf 3)).flatten) % 24) ++ [120]

/-- The C10 counterexample mnemonic string. -/
def c10Mnemonic : List Nat :=
  joinWords (c10First24 ++ [c10Word25])

/-- Counterexample to C10 as stated: a 25-word mnemonic whose first 24
words are valid and whose 25th word agrees with the checksum word on the
first `prefixLength` characters, yet `mnemonicToSeed` rejects it (the
25th word must itself be a word-list word to pass the index lookup). -/
theorem claim_C10_counterexample :
    (tokenize c10Mnemonic).length = 25 ∧
    (∀ w ∈ (tokenize c10Mnemonic).take 24, (jsIndexOf demoWordList w).isSome) ∧
    checksumPrefixOk demoLanguage (tokenize c10Mnemonic) ∧
    mnemonicToSeed demoLanguage c10Mnemonic = none := by
  refine ⟨by decide, by decide, by decide, by decide⟩

/-- A concrete accepted 25-word mnemonic over the demo word list: 24 data
words plus the checksum word the CRC rule selects. -/
def c10Accepted : List Nat :=
  joinWords (c10First24 ++
    [c10First24.getD (crc32 ((c10First24.map (prefixOf 3)).flatten) % 24) []])

/-- Witness for the amended C10 at a concrete mnemonic over the demo word
list. -/
theorem claim_C10_witness :
    (mnemonicToSeed demoLanguage c10Accepted).isSome ↔
      checksumPrefixOk demoLanguage (tokenize c10Accepted) :=
  (claim_C10_checksum_rule demoLanguage (by decide) c10Accepted
    (by decide) (by decide)).1

/-! ## Blake2b — src/blake2b.js (in the snapshot)

The source tracks 64-bit words as pairs of 32-bit halves
(`ADD64AA`/`XOR64`/shift-composed rotations); the embedding models each
word as one natural number reduced mod 2⁶⁴, which those pair operations
implement (the add drops the carry out of the high half, i.e. reduces
mod 2⁶⁴). -/

/-- 2⁶⁴, the word modulus. -/
def M64 : Nat := 18446744073709551616

/-- Right rotation of a 64-bit word by `c` (the source composes 32-bit
shifts; on whole words this is the standard rotation). -/
def rotr64 (x c : Nat) : Nat :=
  x / 2 ^ c + x % 2 ^ c * 2 ^ (64 - c)

/-- The Blake2b IV, as the eight 64-bit words the source stores as
`(lo, hi)` pairs. -/
def blakeIV : List Nat :=
  [0x6a09e667f3bcc908, 0xbb67ae8584caa73b, 0x3c6ef372fe94f82b, 0xa54ff53a5f1d36f1,
   0x510e527fade682d1, 0x9b05688c2b3e6c1f, 0x1f83d9abfb41bd6b, 0x5be0cd19137e2179]

/-- The sigma permutation table. -/
def SIGMA : List (List Nat) :=
  [[0, 1, 2, 3, 4, 5, 6, 7, 8, 9, 10, 11, 12, 13, 14, 15],
   [14, 10, 4, 8, 9, 15, 13, 6, 1, 12, 0, 2, 11, 7, 5, 3],
   [11, 8, 12, 0, 5, 2, 15, 13, 10, 14, 3, 6, 7, 1, 9, 4],
   [7, 9, 3, 1, 13, 12, 11, 14, 2, 6, 5, 10, 4, 0, 15, 8],
   [9, 0, 5, 7, 2, 4, 10, 15, 14, 1, 11, 12, 6, 8, 3, 13],
   [2, 12, 6, 10, 0, 11, 8, 3, 4, 13, 7, 5, 15, 14, 1, 9],
   [12, 5, 1, 15, 14, 13, 4, 10, 0, 7, 6, 3, 9, 2, 8, 11],
   [13, 11, 7, 14, 12, 1, 3, 9, 5, 0, 15, 4, 8, 6, 2, 10],
   [6, 15, 14, 9, 11, 3, 0, 8, 12, 2, 13, 7, 1, 4, 10, 5],
   [10, 2, 8, 4, 7, 6, 1, 5, 15, 11, 9, 14, 3, 12, 13, 0],
   [0, 1, 2, 3, 4, 5, 6, 7, 8, 9, 10, 11, 12, 13, 14, 15],
   [14, 10, 4, 8, 9, 15, 13, 6, 1, 12, 0, 2, 11, 7, 5, 3]]

/-- The G mixing function of blake2b.js on the 16-word working vector. -/
def blakeG (v : List Nat) (a b c d x y : Nat) : List Nat :=
  let va := (v.getD a 0 + v.getD b 0 + x) % M64
  let vd := rotr64 (Nat.xor (v.getD d 0) va) 32
  let vc := (v.getD c 0 + vd) % M64
  let vb := rotr64 (Nat.xor (v.getD b 0) vc) 24
  let va2 := (va + vb + y) % M64
  let vd2 := rotr64 (Nat.xor vd va2) 16
  let vc2 := (vc + vd2) % M64
  let vb2 := rotr64 (Nat.xor vb vc2) 63
  (((v.set a va2).set b vb2).set c vc2).set d vd2

/-- One of the 12 compression rounds. -/
def blakeRound (m : List Nat) (v : List Nat) (r : Nat) : List Nat :=
  let s := SIGMA.getD r []
  let g := fun (v : List Nat) (a b c d i j : Nat) =>
    blakeG v a b c d (m.getD (s.getD i 0) 0) (m.getD (s.getD j 0) 0)
  let v1 := g v 0 4 8 12 0 1
  let v2 := g v1 1 5 9 13 2 3
  let v3 := g v2 2 6 10 14 4 5
  let v4 := g v3 3 7 11 15 6 7
  let v5 := g v4 0 5 10 15 8 9
  let v6 := g v5 1 6 11 12 10 11
  let v7 := g v6 2 7 8 13 12 13
  g v7 3 4 9 14 14 15

/-- Little-endian 8-byte groups → 64-bit words (the message load of
`compress`). -/
def bytesToWords : List Nat → List Nat
  | b0 :: b1 :: b2 :: b3 :: b4 :: b5 :: b6 :: b7 :: rest =>
      (b0 + b1 * 256 + b2 * 65536 + b3 * 16777216 + b4 * 4294967296 +
        b5 * 1099511627776 + b6 * 281474976710656 + b7 * 72057594037927936)
        :: bytesToWords rest
  | _ => []

/-- One 64-bit word → its eight little-endian bytes (the output
serialization of `final`). -/
def wordToBytes8 (w : Nat) : List Nat :=
  [w % 256, w / 256 % 256, w / 65536 % 256, w / 16777216 % 256,
   w / 4294967296 % 256, w / 1099511627776 % 256, w / 281474976710656 % 256,
   w / 72057594037927936 % 256]

/-- `compress` of blake2b.js: `h` is the 8-word state, `block` the
128-byte buffer, `t` the byte counter, `last` the finalization flag. -/
def blake2bCompress (h : List Nat) (block : List Nat) (t : Nat) (last : Bool) :
    List Nat :=
  let v0 := h ++ blakeIV
  let v1 := v0.set 12 (Nat.xor (v0.getD 12 0) (t % M64))
  let v2 := if last then v1.set 14 (Nat.xor (v1.getD 14 0) (M64 - 1)) else v1
  let m := bytesToWords block
  let vfinal := (List.range 12).foldl (blakeRound m) v2
  (List.range 8).map (fun i =>
    Nat.xor (h.getD i 0) (Nat.xor (vfinal.getD i 0) (vfinal.getD (i + 8) 0)))

/-- `update` of blake2b.js, one input byte at a time over the state
`(h, buffer, t)`: a full buffer is compressed (with the counter bumped
first) before the next byte enters. -/
def blake2bUpdate : List Nat × List Nat × Nat → List Nat → List Nat × List Nat × Nat
  | (h, buf, t), [] => (h, buf, t)
  | (h, buf, t), x :: xs =>
      if buf.length = 128 then
        blake2bUpdate (blake2bCompress h buf (t + 128) false, [x], t + 128) xs
      else
        blake2bUpdate (h, buf ++ [x], t) xs

/-- `final` of blake2b.js: bump the counter by the residual buffer
length, zero-pad to 128 bytes, compress with the last flag, and emit the
first `outlen` bytes of the state, little-endian per word. -/
def blake2bFinal (h buf : List Nat) (t outlen : Nat) : List Nat :=
  let tfin := t + buf.length
  let padded := buf ++ List.replicate (128 - buf.length) 0
  let hfin := blake2bCompress h padded tfin true
  ((hfin.map wordToBytes8).flatten).take outlen

/-- `blake2b(input, outlen, key)` of blake2b.js: parameter-block mixing
into `h[0]`, optional zero-padded 128-byte key block, then update and
final.  The source throws for `outlen` outside `1..64` or keys longer
than 64 bytes; the uses verified here stay inside those bounds. -/
def blake2b (input : List Nat) (outlen : Nat) (key : List Nat) : List Nat :=
  let h0 := blakeIV.set 0
    (Nat.xor (blakeIV.getD 0 0) (Nat.xor 0x01010000 (Nat.xor (key.length * 256) outlen)))
  let st0 : List Nat × List Nat × Nat := (h0, [], 0)
  let st1 := if key.length > 0 then
      blake2bUpdate st0 (key ++ List.replicate (128 - key.length) 0)
    else st0
  let st2 := blake2bUpdate st1 input
  blake2bFinal st2.1 st2.2.1 st2.2.2 outlen

/-! ## CARROT key derivation — src/carrot.js (in the snapshot) -/

/-- The group order `L = 2²⁵² + 27742317777372353535851937790883648493`. -/
def L : Nat := 7237005577332262213973186563042994240857116359379907606001950938285454250989

/-- Little-endian byte interpretation (the claim's reading of the 64-byte
hash). -/
def leNat : List Nat → Nat
  | [] => 0
  | b :: t => b + 256 * leNat t

/-- `len` little-endian bytes of `n`. -/
def natToLe : Nat → Nat → List Nat
  | 0, _ => []
  | k + 1, n => n % 256 :: natToLe k (n / 256)

/-- `scReduce` of carrot.js (sc_reduce): read the bytes little-endian
(the source loops from the top byte down, shifting), reduce mod `L`, and
write 32 little-endian bytes. -/
def scReduce (bytes : List Nat) : List Nat :=
  natToLe 32 ((bytes.foldr (fun byte acc => acc * 256 + byte) 0) % L)

/-- The UTF-8 bytes of an ASCII string (`TextEncoder.encode`). -/
def asciiBytes (s : String) : List Nat :=
  s.toList.map Char.toNat

/-- `makeDomainSep` of carrot.js: the string bytes prefixed by their
length (SpFixedTranscript format). -/
def makeDomainSep (s : String) : List Nat :=
  (asciiBytes s).length :: asciiBytes s

/-- `deriveBytes32` of carrot.js: 32-byte keyed Blake2b of the domain
separator. -/
def deriveBytes32 (domainSep key : List Nat) : List Nat :=
  blake2b domainSep 32 key

/-- `deriveScalar` of carrot.js: 64-byte keyed Blake2b, reduced mod `L`. -/
def deriveScalar (domainSep key : List Nat) : List Nat :=
  scReduce (blake2b domainSep 64 key)

/-- `makeViewBalanceSecret` of carrot.js. -/
def makeViewBalanceSecret (masterSecret : List Nat) : List Nat :=
  deriveBytes32 (makeDomainSep "Carrot view-balance secret") masterSecret

/-- `makeViewIncomingKey` of carrot.js. -/
def makeViewIncomingKey (viewBalanceSecret : List Nat) : List Nat :=
  deriveScalar (makeDomainSep "Carrot incoming view key") viewBalanceSecret

/-- `makeProveSpendKey` of carrot.js. -/
def makeProveSpendKey (masterSecret : List Nat) : List Nat :=
  deriveScalar (makeDomainSep "Carrot prove-spend key") masterSecret

/-- `makeGenerateImageKey` of carrot.js. -/
def makeGenerateImageKey (viewBalanceSecret : List Nat) : List Nat :=
  deriveScalar (makeDomainSep "Carrot generate-image key") viewBalanceSecret

/-- `makeGenerateAddressSecret` of carrot.js. -/
def makeGenerateAddressSecret (viewBalanceSecret : List Nat) : List Nat :=
  deriveBytes32 (makeDomainSep "Carrot generate-address secret") viewBalanceSecret

/-- Modelled from the spec: `bytesToHex` of address.js (not in the
snapshot) — the lower-case hex string of a byte array, here as character
codes. -/
def bytesToHex (bytes : List Nat) : List Nat :=
  bytes.flatMap (fun b =>
    [if b / 16 < 10 then 48 + b / 16 else 87 + b / 16,
     if b % 16 < 10 then 48 + b % 16 else 87 + b % 16])

/-- The result record of `deriveCarrotKeys` (hex strings, as character
code lists). -/
structure CarrotKeys where
  masterSecret : List Nat
  proveSpendKey : List Nat
  viewBalanceSecret : List Nat
  generateImageKey : List Nat
  viewIncomingKey : List Nat
  generateAddressSecret : List Nat
  deriving Repr, DecidableEq

/-- `deriveCarrotKeys` of carrot.js (byte-array input path). -/
def deriveCarrotKeys (masterSecret : List Nat) : CarrotKeys :=
  let viewBalanceSecret := makeViewBalanceSecret masterSecret
  let proveSpendKey := makeProveSpendKey masterSecret
  let viewIncomingKey := makeViewIncomingKey viewBalanceSecret
  let generateImageKey := makeGenerateImageKey viewBalanceSecret
  let generateAddressSecret := makeGenerateAddressSecret viewBalanceSecret
  { masterSecret := bytesToHex masterSecret
    proveSpendKey := bytesToHex proveSpendKey
    viewBalanceSecret := bytesToHex viewBalanceSecret
    generateImageKey := bytesToHex generateImageKey
    viewIncomingKey := bytesToHex viewIncomingKey
    generateAddressSecret := bytesToHex generateAddressSecret }

theorem foldr_eq_leNat (b : List Nat) :
    b.foldr (fun byte acc => acc * 256 + byte) 0 = leNat b := by
  induction b with
  | nil => rfl
  | cons x t ih =>
      simp only [List.foldr_cons, ih, leNat]
      omega

theorem scReduce_eq (b : List Nat) : scReduce b = natToLe 32 (leNat b % L) := by
  unfold scReduce
  rw [foldr_eq_leNat]

/-- C7: `deriveCarrotKeys(m)` is deterministic (it is a function of `m`)
and returns exactly: `s_vb = Blake2b_32` of the length-prefixed domain
string "Carrot view-balance secret" keyed with `m`; `k_ps = reduce64` of
the 64-byte Blake2b of "Carrot prove-spend key" keyed with `m`;
`k_vi = reduce64` of "Carrot incoming view key" keyed with `s_vb`;
`k_gi = reduce64` of "Carrot generate-image key" keyed with `s_vb`; and
`s_ga` = 32-byte Blake2b of "Carrot generate-address secret" keyed with
`s_vb` — where `reduce64` reads the 64 bytes little-endian and reduces
mod the group order `L` (all values hex-encoded in the result record). -/
theorem claim_C7_carrot_key_tree (m : List Nat) :
    deriveCarrotKeys m =
      { masterSecret := bytesToHex m
        proveSpendKey := bytesToHex
          (natToLe 32 (leNat (blake2b (makeDomainSep "Carrot prove-spend key") 64 m) % L))
        viewBalanceSecret := bytesToHex
          (blake2b (makeDomainSep "Carrot view-balance secret") 32 m)
        generateImageKey := bytesToHex
          (natToLe 32 (leNat (blake2b (makeDomainSep "Carrot generate-image key") 64
            (blake2b (makeDomainSep "Carrot view-balance secret") 32 m)) % L))
        viewIncomingKey := bytesToHex
          (natToLe 32 (leNat (blake2b (makeDomainSep "Carrot incoming view key") 64
            (blake2b (makeDomainSep "Carrot view-balance secret") 32 m)) % L))
        generateAddressSecret := bytesToHex
          (blake2b (makeDomainSep "Carrot generate-address secret") 32
            (blake2b (makeDomainSep "Carrot view-balance secret") 32 m)) } := by
  unfold deriveCarrotKeys makeViewBalanceSecret makeProveSpendKey makeViewIncomingKey
    makeGenerateImageKey makeGenerateAddressSecret deriveBytes32 deriveScalar
  simp only [scReduce_eq]

/-! ## Keccak-256 — keccak.js

`keccak.js` is not in the snapshot (only test vectors and callers are).
Modelled from the spec: the original Keccak-256 (rate 1088 bits,
multi-rate padding with domain byte `0x01`), which reproduces the spec's
test vectors `Keccak256("") = c5d24601…` and `Keccak256("test") =
9c22ff5f…`. -/

/-- Left rotation of a 64-bit word. -/
def rotl64 (x c : Nat) : Nat :=
  x % 2 ^ (64 - c) * 2 ^ c + x / 2 ^ (64 - c)

/-- The 24 round constants of Keccak-f[1600]. -/
def keccakRC : List Nat :=
  [0x0000000000000001, 0x0000000000008082, 0x800000000000808a, 0x8000000080008000,
   0x000000000000808b, 0x0000000080000001, 0x8000000080008081, 0x8000000000008009,
   0x000000000000008a, 0x0000000000000088, 0x0000000080008009, 0x000000008000000a,
   0x000000008000808b, 0x800000000000008b, 0x8000000000008089, 0x8000000000008003,
   0x8000000000008002, 0x8000000000000080, 0x000000000000800a, 0x800000008000000a,
   0x8000000080008081, 0x8000000000008080, 0x0000000080000001, 0x8000000080008008]

/-- The rotation offsets, indexed `x + 5*y`. -/
def keccakRot : List Nat :=
  [0, 1, 62, 28, 27] ++ [36, 44, 6, 55, 20] ++ [3, 10, 43, 25, 39]
    ++ [41, 45, 15, 21, 8] ++ [18, 2, 61, 56, 14]

/-- θ step. -/
def keccakTheta (A : List Nat) : List Nat :=
  let C := (List.range 5).map (fun x =>
    Nat.xor (A.getD x 0) (Nat.xor (A.getD (x + 5) 0) (Nat.xor (A.getD (x + 10) 0)
      (Nat.xor (A.getD (x + 15) 0) (A.getD (x + 20) 0)))))
  let D := (List.range 5).map (fun x =>
    Nat.xor (C.getD ((x + 4) % 5) 0) (rotl64 (C.getD ((x + 1) % 5) 0) 1))
  (List.range 25).map (fun i => Nat.xor (A.getD i 0) (D.getD (i % 5) 0))

/-- ρ and π steps: `B[y, 2x+3y] = rotl(A[x, y], r[x, y])`. -/
def keccakRhoPi (A : List Nat) : List Nat :=
  (List.range 25).foldl (fun B i =>
    let x := i % 5
    let y := i / 5
    B.set (y + 5 * ((2 * x + 3 * y) % 5)) (rotl64 (A.getD i 0) (keccakRot.getD i 0)))
    (List.replicate 25 0)

/-- χ step. -/
def keccakChi (B : List Nat) : List Nat :=
  (List.range 25).map (fun i =>
    let x := i % 5
    let y := i / 5
    Nat.xor (B.getD i 0)
      (Nat.land (Nat.xor (B.getD ((x + 1) % 5 + 5 * y) 0) (M64 - 1))
        (B.getD ((x + 2) % 5 + 5 * y) 0)))

/-- One Keccak-f round. -/
def keccakRound (A : List Nat) (rc : Nat) : List Nat :=
  let B := keccakChi (keccakRhoPi (keccakTheta A))
  B.set 0 (Nat.xor (B.getD 0 0) rc)

/-- Keccak-f[1600]. -/
def keccakF (A : List Nat) : List Nat :=
  keccakRC.foldl keccakRound A

/-- Absorb one 136-byte block: xor into the first 17 lanes, then permute. -/
def keccakAbsorbBlock (A : List Nat) (block : List Nat) : List Nat :=
  let ws := bytesToWords block
  keccakF ((List.range 25).map (fun i =>
    if i < 17 then Nat.xor (A.getD i 0) (ws.getD i 0) else A.getD i 0))

/-- Absorb all 136-byte blocks (fueled structural recursion; the fuel is
always at least the block count). -/
def keccakAbsorb : Nat → List Nat → List Nat → List Nat
  | _, A, [] => A
  | 0, A, _ => A
  | f + 1, A, bs => keccakAbsorb f (keccakAbsorbBlock A (bs.take 136)) (bs.drop 136)

/-- Keccak multi-rate padding with domain byte `0x01` (original Keccak,
as CryptoNote uses — not the SHA-3 `0x06` variant). -/
def keccakPad (len : Nat) : List Nat :=
  let q := 136 - len % 136
  if q = 1 then [0x81]
  else 0x01 :: (List.replicate (q - 2) 0 ++ [0x80])

/-- Modelled from the spec: `keccak256` of keccak.js — 32-byte Keccak-256
of a byte array. -/
def keccak256 (msg : List Nat) : List Nat :=
  let padded := msg ++ keccakPad msg.length
  let A := keccakAbsorb (padded.length + 1) (List.replicate 25 0) padded
  ((A.take 4).map wordToBytes8).flatten

/-! ## Base58 address codec — src/base58.js (in the snapshot)

Strings are modelled as lists of character codes; `null` results as
`none`.  The source's `while (num > 0)` digit loop and the varint loops
recurse on shrinking numeric values; they are embedded with an explicit
fuel that is always sufficient (`value + 1`), so the functions are
structurally recursive and kernel-computable while agreeing with the
source on every input. -/

/-- `BASE58_ALPHABET` of constants.js, as character codes. -/
def BASE58_ALPHABET : List Nat :=
  [49, 50, 51, 52, 53, 54, 55, 56, 57, 65, 66, 67, 68, 69, 70, 71, 72, 74, 75,
   76, 77, 78, 80, 81, 82, 83, 84, 85, 86, 87, 88, 89, 90, 97, 98, 99, 100,
   101, 102, 103, 104, 105, 106, 107, 109, 110, 111, 112, 113, 114, 115, 116,
   117, 118, 119, 120, 121, 122]

/-- `BASE58_ENCODED_BLOCK_SIZES` of constants.js. -/
def BASE58_ENCODED_BLOCK_SIZES : List Nat :=
  [0, 2, 3, 5, 6, 7, 9, 10, 11]

/-- `Array.prototype.indexOf` over a list of numbers (`none` for `-1`);
used for the `ALPHABET_MAP` and `DECODED_BLOCK_SIZES` reverse lookups. -/
def indexOfNat (l : List Nat) (w : Nat) : Option Nat :=
  go l 0
where
  go : List Nat → Nat → Option Nat
    | [], _ => none
    | x :: xs, i => if x = w then some i else go xs (i + 1)

/-- The base-58 digits of `num`, most significant first (empty for 0), as
the source's division loop produces them. -/
def natToB58Digits : Nat → Nat → List Nat
  | 0, _ => []
  | f + 1, n => if n = 0 then [] else natToB58Digits f (n / 58) ++ [n % 58]

/-- `uint8BEToUint64` of base58.js: big-endian byte value. -/
def beNat (data : List Nat) : Nat :=
  data.foldl (fun acc b => acc * 256 + b) 0

/-- `uint64ToUint8BE` of base58.js: `size` big-endian bytes of `num`
(higher bytes are dropped, as the source's shift loop does). -/
def natToBe (size n : Nat) : List Nat :=
  (natToLe size n).reverse

/-- `encodeBlock` of base58.js: the base-58 digits written right-aligned
over a run of `'1'` (= digit 0) of the block-size table's length.  When
the digits would overflow the window the source writes through negative
indices, keeping only the last `size` digits; the `drop` branch mirrors
that (it is unreachable for byte blocks). -/
def encodeBlock (block : List Nat) : List Nat :=
  let size := BASE58_ENCODED_BLOCK_SIZES.getD block.length 0
  let num := beNat block
  let ds := (natToB58Digits (num + 1) num).map (fun d => BASE58_ALPHABET.getD d 0)
  if ds.length ≤ size then List.replicate (size - ds.length) 49 ++ ds
  else ds.drop (ds.length - size)

/-- The character-to-digit fold of `decodeBlock`. -/
def b58CharsToNat : List Nat → Nat → Option Nat
  | [], acc => some acc
  | c :: cs, acc =>
      match indexOfNat BASE58_ALPHABET c with
      | none => none
      | some d => b58CharsToNat cs (acc * 58 + d)

/-- `decodeBlock` of base58.js: reverse block-size lookup, digit fold,
overflow check for partial blocks, big-endian serialization. -/
def decodeBlock (block : List Nat) : Option (List Nat) :=
  match indexOfNat BASE58_ENCODED_BLOCK_SIZES block.length with
  | none => none
  | some decodedSize =>
      if decodedSize = 0 then some []
      else
        match b58CharsToNat block 0 with
        | none => none
        | some num =>
            if decodedSize < 8 ∧ 2 ^ (8 * decodedSize) ≤ num then none
            else some (natToBe decodedSize num)

/-- `encode` of base58.js: full 8-byte blocks, then the final partial
block. -/
def b58Encode : List Nat → List Nat
  | b0 :: b1 :: b2 :: b3 :: b4 :: b5 :: b6 :: b7 :: rest =>
      encodeBlock [b0, b1, b2, b3, b4, b5, b6, b7] ++ b58Encode rest
  | [] => []
  | short => encodeBlock short

/-- `decode` of base58.js: full 11-character blocks, then the final
partial block (fueled; the fuel is always at least the block count). -/
def b58DecodeAux : Nat → List Nat → Option (List Nat)
  | _, [] => some []
  | 0, _ => none
  | f + 1, cs =>
      if cs.length < 11 then decodeBlock cs
      else
        match decodeBlock (cs.take 11), b58DecodeAux f (cs.drop 11) with
        | some bs, some rest => some (bs ++ rest)
        | _, _ => none

/-- `decode` of base58.js. -/
def b58Decode (cs : List Nat) : Option (List Nat) :=
  b58DecodeAux (cs.length + 1) cs

/-- `encodeVarint` of base58.js (fueled division loop). -/
def encodeVarintAux : Nat → Nat → List Nat
  | 0, _ => []
  | f + 1, v => if v < 128 then [v] else (v % 128 + 128) :: encodeVarintAux f (v / 128)

/-- `encodeVarint` of base58.js. -/
def encodeVarint (v : Nat) : List Nat :=
  encodeVarintAux (v + 1) v

/-- The loop of `decodeVarint`: at most 10 bytes, 7 bits each, ored in at
the running shift. -/
def decodeVarintAux : List Nat → Nat → Nat → Nat → Option (Nat × Nat)
  | [], _, _, _ => none
  | b :: rest, i, shift, value =>
      if 10 ≤ i then none
      else
        let v2 := Nat.lor value (b % 128 * 2 ^ shift)
        if b < 128 then some (v2, i + 1)
        else decodeVarintAux rest (i + 1) (shift + 7) v2

/-- `decodeVarint` of base58.js: the decoded value and the bytes read, or
`none` for an overlong or incomplete varint. -/
def decodeVarint (data : List Nat) : Option (Nat × Nat) :=
  decodeVarintAux data 0 0 0

/-- `encodeAddress` of base58.js:
`base58(varint(tag) ‖ data ‖ keccak256(varint(tag) ‖ data)[0..4])`. -/
def encodeAddress (tag : Nat) (data : List Nat) : List Nat :=
  let combined := encodeVarint tag ++ data
  let checksum := (keccak256 combined).take 4
  b58Encode (combined ++ checksum)

/-- `decodeAddress` of base58.js: base-58 decode, checksum verification,
varint tag extraction. -/
def decodeAddress (address : List Nat) : Option (Nat × List Nat) :=
  match b58Decode address with
  | none => none
  | some decoded =>
      if decoded.length ≤ 4 then none
      else
        let checksum := decoded.drop (decoded.length - 4)
        let payload := decoded.take (decoded.length - 4)
        if (keccak256 payload).take 4 ≠ checksum then none
        else
          match decodeVarint payload with
          | none => none
          | some (tag, bytesRead) => some (tag, payload.drop bytesRead)

/-! ### Base58 round-trip lemmas -/

/-- Most-significant-first digit value. -/
def fromDigits (ds : List Nat) : Nat :=
  ds.foldl (fun acc d => acc * 58 + d) 0

theorem foldl_b58_acc (ds : List Nat) (acc : Nat) :
    ds.foldl (fun a d => a * 58 + d) acc = acc * 58 ^ ds.length + fromDigits ds := by
  induction ds generalizing acc with
  | nil => simp [fromDigits]
  | cons d t ih =>
      show t.foldl (fun a d => a * 58 + d) (acc * 58 + d) = _
      rw [ih (acc * 58 + d)]
      unfold fromDigits
      show _ = acc * 58 ^ (t.length + 1) + t.foldl (fun a d => a * 58 + d) (0 * 58 + d)
      rw [ih (0 * 58 + d)]
      unfold fromDigits
      ring

theorem fromDigits_append (l1 l2 : List Nat) :
    fromDigits (l1 ++ l2) = fromDigits l1 * 58 ^ l2.length + fromDigits l2 := by
  unfold fromDigits
  rw [List.foldl_append, foldl_b58_acc]
  rfl

theorem natToB58Digits_val : ∀ n f, n < f → fromDigits (natToB58Digits f n) = n := by
  intro n
  induction n using Nat.strong_induction_on with
  | _ n ih =>
      intro f hf
      match f, hf with
      | g + 1, _ =>
          show fromDigits (if n = 0 then [] else natToB58Digits g (n / 58) ++ [n % 58]) = n
          by_cases hn : n = 0
          · simp [hn, fromDigits]
          · rw [if_neg hn, fromDigits_append]
            have hrec : n / 58 < n := Nat.div_lt_self (by omega) (by omega)
            rw [ih (n / 58) hrec g (by omega)]
            show n / 58 * 58 ^ 1 + (0 * 58 + n % 58) = n
            omega

theorem natToB58Digits_length : ∀ f n k, n < 58 ^ k →
    (natToB58Digits f n).length ≤ k := by
  intro f
  induction f with
  | zero => intro n k _; simp [natToB58Digits]
  | succ g ih =>
      intro n k hk
      show (if n = 0 then [] else natToB58Digits g (n / 58) ++ [n % 58]).length ≤ k
      by_cases hn : n = 0
      · simp [hn]
      · rw [if_neg hn]
        have hk1 : 1 ≤ k := by
          by_contra hk0
          have : k = 0 := by omega
          subst this
          simp at hk
          omega
        have : n / 58 < 58 ^ (k - 1) := by
          have h58 : 58 ^ k = 58 ^ (k - 1) * 58 := by
            conv_lhs => rw [show k = (k - 1) + 1 by omega]
            rw [pow_succ]
          apply Nat.div_lt_of_lt_mul
          omega
        have := ih (n / 58) (k - 1) this
        simp only [List.length_append, List.length_cons, List.length_nil]
        omega

theorem natToB58Digits_lt : ∀ f n, ∀ d ∈ natToB58Digits f n, d < 58 := by
  intro f
  induction f with
  | zero => intro n d hd; simp [natToB58Digits] at hd
  | succ g ih =>
      intro n d hd
      rw [show natToB58Digits (g + 1) n
          = if n = 0 then [] else natToB58Digits g (n / 58) ++ [n % 58] from rfl] at hd
      by_cases hn : n = 0
      · rw [if_pos hn] at hd; simp at hd
      · rw [if_neg hn] at hd
        rcases List.mem_append.mp hd with hl | hr
        · exact ih (n / 58) d hl
        · rw [List.mem_singleton.mp hr]
          exact Nat.mod_lt _ (by omega)

theorem alpha_index_getD : ∀ d, d < 58 →
    indexOfNat BASE58_ALPHABET (BASE58_ALPHABET.getD d 0) = some d := by decide

theorem b58CharsToNat_mapped (ds : List Nat) (hds : ∀ d ∈ ds, d < 58) (acc : Nat) :
    b58CharsToNat (ds.map (fun d => BASE58_ALPHABET.getD d 0)) acc
      = some (ds.foldl (fun a d => a * 58 + d) acc) := by
  induction ds generalizing acc with
  | nil => rfl
  | cons d t ih =>
      show (match indexOfNat BASE58_ALPHABET (BASE58_ALPHABET.getD d 0) with
        | none => none
        | some d2 => b58CharsToNat (t.map fun d => BASE58_ALPHABET.getD d 0) (acc * 58 + d2))
          = _
      rw [alpha_index_getD d (hds d (by simp))]
      exact ih (fun e he => hds e (by simp [he])) (acc * 58 + d)

theorem b58CharsToNat_padded (p : Nat) (ds : List Nat) (hds : ∀ d ∈ ds, d < 58) :
    b58CharsToNat (List.replicate p 49 ++ ds.map (fun d => BASE58_ALPHABET.getD d 0)) 0
      = some (fromDigits ds) := by
  induction p with
  | zero => exact b58CharsToNat_mapped ds hds 0
  | succ q ih =>
      show (match indexOfNat BASE58_ALPHABET 49 with
        | none => none
        | some d2 => b58CharsToNat
            (List.replicate q 49 ++ ds.map fun d => BASE58_ALPHABET.getD d 0) (0 * 58 + d2))
          = some (fromDigits ds)
      rw [show indexOfNat BASE58_ALPHABET 49 = some 0 from rfl]
      exact ih

theorem leNat_lt (l : List Nat) (hb : ∀ b ∈ l, b < 256) : leNat l < 256 ^ l.length := by
  induction l with
  | nil => simp [leNat]
  | cons x t ih =>
      have hx : x < 256 := hb x (by simp)
      have ht := ih (fun b h => hb b (by simp [h]))
      show x + 256 * leNat t < 256 ^ (t.length + 1)
      rw [pow_succ]
      omega

theorem natToLe_leNat (l : List Nat) (hb : ∀ b ∈ l, b < 256) :
    natToLe l.length (leNat l) = l := by
  induction l with
  | nil => rfl
  | cons x t ih =>
      have hx : x < 256 := hb x (by simp)
      show (x + 256 * leNat t) % 256 :: natToLe t.length ((x + 256 * leNat t) / 256) = x :: t
      have h1 : (x + 256 * leNat t) % 256 = x := by omega
      have h2 : (x + 256 * leNat t) / 256 = leNat t := by omega
      rw [h1, h2, ih (fun b h => hb b (by simp [h]))]

theorem beNat_acc (l : List Nat) (acc : Nat) :
    l.foldl (fun a b => a * 256 + b) acc = acc * 256 ^ l.length + beNat l := by
  induction l generalizing acc with
  | nil => simp [beNat]
  | cons x t ih =>
      show t.foldl (fun a b => a * 256 + b) (acc * 256 + x) = _
      rw [ih (acc * 256 + x)]
      unfold beNat
      show _ = acc * 256 ^ (t.length + 1) + t.foldl (fun a b => a * 256 + b) (0 * 256 + x)
      rw [ih (0 * 256 + x)]
      unfold beNat
      ring

theorem leNat_append (l1 l2 : List Nat) :
    leNat (l1 ++ l2) = leNat l1 + 256 ^ l1.length * leNat l2 := by
  induction l1 with
  | nil => simp [leNat]
  | cons x t ih =>
      show x + 256 * leNat (t ++ l2) = (x + 256 * leNat t) + 256 ^ (t.length + 1) * leNat l2
      rw [ih, pow_succ]
      ring

theorem beNat_reverse (l : List Nat) : beNat l = leNat l.reverse := by
  induction l with
  | nil => rfl
  | cons x t ih =>
      rw [List.reverse_cons, leNat_append, ← ih, List.length_reverse]
      show t.foldl (fun a b => a * 256 + b) (0 * 256 + x) = beNat t + 256 ^ t.length * leNat [x]
      rw [beNat_acc]
      have hx : leNat [x] = x := by simp [leNat]
      rw [hx]
      ring

theorem pow256_eq (n : Nat) : 256 ^ n = 2 ^ (8 * n) := by
  rw [show (256 : Nat) = 2 ^ 8 from rfl, ← pow_mul]

theorem beNat_lt (l : List Nat) (hb : ∀ b ∈ l, b < 256) : beNat l < 2 ^ (8 * l.length) := by
  rw [beNat_reverse, ← pow256_eq, ← List.length_reverse l]
  exact leNat_lt l.reverse (fun b h => hb b (List.mem_reverse.mp h))

theorem natToBe_beNat (l : List Nat) (hb : ∀ b ∈ l, b < 256) :
    natToBe l.length (beNat l) = l := by
  unfold natToBe
  rw [beNat_reverse, ← List.length_reverse l,
      natToLe_leNat l.reverse (fun b h => hb b (List.mem_reverse.mp h)),
      List.reverse_reverse]

theorem sizes_pow : ∀ n < 9, 1 ≤ n →
    2 ^ (8 * n) ≤ 58 ^ (BASE58_ENCODED_BLOCK_SIZES.getD n 0) := by decide

theorem sizes_rev : ∀ n < 9,
    indexOfNat BASE58_ENCODED_BLOCK_SIZES (BASE58_ENCODED_BLOCK_SIZES.getD n 0)
      = some n := by decide

theorem sizes_bounds : ∀ n < 9, 1 ≤ n →
    2 ≤ BASE58_ENCODED_BLOCK_SIZES.getD n 0 ∧
      BASE58_ENCODED_BLOCK_SIZES.getD n 0 ≤ 11 := by decide

theorem encodeBlock_eq (block : List Nat) (h8 : block.length ≤ 8)
    (hb : ∀ b ∈ block, b < 256) :
    encodeBlock block
      = List.replicate
          (BASE58_ENCODED_BLOCK_SIZES.getD block.length 0
            - (natToB58Digits (beNat block + 1) (beNat block)).length) 49
        ++ (natToB58Digits (beNat block + 1) (beNat block)).map
             (fun d => BASE58_ALPHABET.getD d 0) ∧
    (natToB58Digits (beNat block + 1) (beNat block)).length
      ≤ BASE58_ENCODED_BLOCK_SIZES.getD block.length 0 := by
  have hnum : beNat block < 2 ^ (8 * block.length) := beNat_lt block hb
  have hdl : (natToB58Digits (beNat block + 1) (beNat block)).length
      ≤ BASE58_ENCODED_BLOCK_SIZES.getD block.length 0 := by
    by_cases h1 : 1 ≤ block.length
    · exact natToB58Digits_length _ _ _
        (lt_of_lt_of_le hnum (sizes_pow block.length (by omega) h1))
    · have h0 : block.length = 0 := by omega
      have : block = [] := List.eq_nil_of_length_eq_zero h0
      subst this
      simp [natToB58Digits, beNat]
  refine ⟨?_, hdl⟩
  unfold encodeBlock
  rw [if_pos (by rw [List.length_map]; exact hdl), List.length_map]

theorem encodeBlock_length (block : List Nat) (h8 : block.length ≤ 8)
    (hb : ∀ b ∈ block, b < 256) :
    (encodeBlock block).length = BASE58_ENCODED_BLOCK_SIZES.getD block.length 0 := by
  obtain ⟨heq, hdl⟩ := encodeBlock_eq block h8 hb
  rw [heq]
  simp only [List.length_append, List.length_replicate, List.length_map]
  omega

theorem decodeBlock_encodeBlock (block : List Nat) (h1 : 1 ≤ block.length)
    (h8 : block.length ≤ 8) (hb : ∀ b ∈ block, b < 256) :
    decodeBlock (encodeBlock block) = some block := by
  obtain ⟨heq, hdl⟩ := encodeBlock_eq block h8 hb
  have hlen := encodeBlock_length block h8 hb
  have hnum : beNat block < 2 ^ (8 * block.length) := beNat_lt block hb
  unfold decodeBlock
  rw [hlen, sizes_rev block.length (by omega)]
  show (if block.length = 0 then some [] else _) = some block
  rw [if_neg (by omega)]
  have hchars : b58CharsToNat (encodeBlock block) 0 = some (beNat block) := by
    rw [heq, b58CharsToNat_padded _ _ (natToB58Digits_lt _ _),
        natToB58Digits_val (beNat block) (beNat block + 1) (by omega)]
  rw [hchars]
  show (if block.length < 8 ∧ 2 ^ (8 * block.length) ≤ beNat block then none
    else some (natToBe block.length (beNat block))) = some block
  rw [if_neg (by omega), natToBe_beNat block hb]

theorem sizes_le_ten : ∀ n < 8, BASE58_ENCODED_BLOCK_SIZES.getD n 0 ≤ 10 := by decide

theorem sizes_ge_len : ∀ n < 9, n ≤ BASE58_ENCODED_BLOCK_SIZES.getD n 0 := by decide

theorem decodeAux_partial (f : Nat) (block : List Nat) (h1 : 1 ≤ block.length)
    (h7 : block.length ≤ 7) (hb : ∀ b ∈ block, b < 256) (hf : 1 ≤ f) :
    b58DecodeAux f (encodeBlock block) = some block := by
  have hlen := encodeBlock_length block (by omega) hb
  have hsz := sizes_bounds block.length (by omega) h1
  have hten := sizes_le_ten block.length (by omega)
  have hne : encodeBlock block ≠ [] := by
    intro h
    rw [h] at hlen
    rw [List.length_nil] at hlen
    omega
  obtain ⟨c, cs, hcs⟩ := List.exists_cons_of_ne_nil hne
  match f, hf with
  | g + 1, _ =>
      rw [hcs]
      show (if (c :: cs).length < 11 then decodeBlock (c :: cs) else _) = some block
      rw [if_pos (by rw [← hcs, hlen]; omega), ← hcs]
      exact decodeBlock_encodeBlock block h1 (by omega) hb

theorem b58DecodeAux_encode : ∀ (data : List Nat) (f : Nat), (∀ b ∈ data, b < 256) →
    data.length < f → b58DecodeAux f (b58Encode data) = some data
  | b0 :: b1 :: b2 :: b3 :: b4 :: b5 :: b6 :: b7 :: rest, f, hb, hf => by
      have hB : ∀ b ∈ [b0, b1, b2, b3, b4, b5, b6, b7], b < 256 := by
        intro b h
        apply hb
        simp only [List.mem_cons, List.mem_append] at h ⊢
        tauto
      have hrest : ∀ b ∈ rest, b < 256 := by
        intro b h
        apply hb
        simp [h]
      have hlenB : (encodeBlock [b0, b1, b2, b3, b4, b5, b6, b7]).length = 11 :=
        encodeBlock_length _ (by simp) hB
      have hflen : (8 : Nat) + rest.length < f := by
        simp only [List.length_cons] at hf
        omega
      match f, hflen with
      | g + 1, _ =>
          show b58DecodeAux (g + 1)
            (encodeBlock [b0, b1, b2, b3, b4, b5, b6, b7] ++ b58Encode rest) = _
          have hne : encodeBlock [b0, b1, b2, b3, b4, b5, b6, b7] ++ b58Encode rest ≠ [] := by
            intro h
            have := congrArg List.length h
            simp only [List.length_append, hlenB, List.length_nil] at this
            omega
          obtain ⟨c, cs, hcs⟩ := List.exists_cons_of_ne_nil hne
          rw [hcs]
          show (if (c :: cs).length < 11 then decodeBlock (c :: cs)
            else match decodeBlock ((c :: cs).take 11), b58DecodeAux g ((c :: cs).drop 11) with
              | some bs, some rest2 => some (bs ++ rest2)
              | _, _ => none) = _
          rw [if_neg (by
            rw [← hcs]
            simp only [List.length_append, hlenB]
            omega), ← hcs]
          have ht : (encodeBlock [b0, b1, b2, b3, b4, b5, b6, b7] ++ b58Encode rest).take 11
              = encodeBlock [b0, b1, b2, b3, b4, b5, b6, b7] := by
            rw [← hlenB]
            exact List.take_left _ _
          have hd : (encodeBlock [b0, b1, b2, b3, b4, b5, b6, b7] ++ b58Encode rest).drop 11
              = b58Encode rest := by
            rw [← hlenB]
            exact List.drop_left _ _
          rw [ht, hd, decodeBlock_encodeBlock _ (by simp) (by simp) hB,
              b58DecodeAux_encode rest g hrest (by omega)]
          rfl
  | [], f, hb, hf => by
      match f, hf with
      | g + 1, _ => rfl
  | [b0], f, hb, hf => by
      exact decodeAux_partial f [b0] (by simp) (by simp) hb (by omega)
  | [b0, b1], f, hb, hf => by
      exact decodeAux_partial f [b0, b1] (by simp) (by simp) hb (by omega)
  | [b0, b1, b2], f, hb, hf => by
      exact decodeAux_partial f [b0, b1, b2] (by simp) (by simp) hb (by omega)
  | [b0, b1, b2, b3], f, hb, hf => by
      exact decodeAux_partial f [b0, b1, b2, b3] (by simp) (by simp) hb (by omega)
  | [b0, b1, b2, b3, b4], f, hb, hf => by
      exact decodeAux_partial f [b0, b1, b2, b3, b4] (by simp) (by simp) hb (by omega)
  | [b0, b1, b2, b3, b4, b5], f, hb, hf => by
      exact decodeAux_partial f [b0, b1, b2, b3, b4, b5] (by simp) (by simp) hb (by omega)
  | [b0, b1, b2, b3, b4, b5, b6], f, hb, hf => by
      exact decodeAux_partial f [b0, b1, b2, b3, b4, b5, b6] (by simp) (by simp) hb
        (by omega)

theorem b58Encode_length_ge : ∀ (data : List Nat), (∀ b ∈ data, b < 256) →
    data.length ≤ (b58Encode data).length
  | b0 :: b1 :: b2 :: b3 :: b4 :: b5 :: b6 :: b7 :: rest, hb => by
      have hrest : ∀ b ∈ rest, b < 256 := by
        intro b h
        apply hb
        simp [h]
      have hB : ∀ b ∈ [b0, b1, b2, b3, b4, b5, b6, b7], b < 256 := by
        intro b h
        apply hb
        simp only [List.mem_cons, List.mem_append] at h ⊢
        tauto
      have hlenB : (encodeBlock [b0, b1, b2, b3, b4, b5, b6, b7]).length = 11 :=
        encodeBlock_length _ (by simp) hB
      have := b58Encode_length_ge rest hrest
      show _ ≤ (encodeBlock [b0, b1, b2, b3, b4, b5, b6, b7] ++ b58Encode rest).length
      simp only [List.length_append, hlenB, List.length_cons]
      omega
  | [], _ => by simp [b58Encode]
  | [b0], hb => by
      rw [show b58Encode [b0] = encodeBlock [b0] from rfl, encodeBlock_length _ (by simp) hb]
      simp [BASE58_ENCODED_BLOCK_SIZES, List.getD]
  | [b0, b1], hb => by
      rw [show b58Encode [b0, b1] = encodeBlock [b0, b1] from rfl,
          encodeBlock_length _ (by simp) hb]
      simp [BASE58_ENCODED_BLOCK_SIZES, List.getD]
  | [b0, b1, b2], hb => by
      rw [show b58Encode [b0, b1, b2] = encodeBlock [b0, b1, b2] from rfl,
          encodeBlock_length _ (by simp) hb]
      simp [BASE58_ENCODED_BLOCK_SIZES, List.getD]
  | [b0, b1, b2, b3], hb => by
      rw [show b58Encode [b0, b1, b2, b3] = encodeBlock [b0, b1, b2, b3] from rfl,
          encodeBlock_length _ (by simp) hb]
      simp [BASE58_ENCODED_BLOCK_SIZES, List.getD]
  | [b0, b1, b2, b3, b4], hb => by
      rw [show b58Encode [b0, b1, b2, b3, b4] = encodeBlock [b0, b1, b2, b3, b4] from rfl,
          encodeBlock_length _ (by simp) hb]
      simp [BASE58_ENCODED_BLOCK_SIZES, List.getD]
  | [b0, b1, b2, b3, b4, b5], hb => by
      rw [show b58Encode [b0, b1, b2, b3, b4, b5] = encodeBlock [b0, b1, b2, b3, b4, b5] from
            rfl,
          encodeBlock_length _ (by simp) hb]
      simp [BASE58_ENCODED_BLOCK_SIZES, List.getD]
  | [b0, b1, b2, b3, b4, b5, b6], hb => by
      rw [show b58Encode [b0, b1, b2, b3, b4, b5, b6]
            = encodeBlock [b0, b1, b2, b3, b4, b5, b6] from rfl,
          encodeBlock_length _ (by simp) hb]
      simp [BASE58_ENCODED_BLOCK_SIZES, List.getD]

theorem b58Decode_b58Encode (data : List Nat) (hb : ∀ b ∈ data, b < 256) :
    b58Decode (b58Encode data) = some data := by
  unfold b58Decode
  have := b58Encode_length_ge data hb
  exact b58DecodeAux_encode data _ hb (by omega)

theorem encodeVarintAux_irrel (v : Nat) : ∀ f1 f2, v < f1 → v < f2 →
    encodeVarintAux f1 v = encodeVarintAux f2 v := by
  induction v using Nat.strong_induction_on with
  | _ v ih =>
      intro f1 f2 h1 h2
      match f1, h1, f2, h2 with
      | g1 + 1, _, g2 + 1, _ =>
          show (if v < 128 then [v] else (v % 128 + 128) :: encodeVarintAux g1 (v / 128))
            = (if v < 128 then [v] else (v % 128 + 128) :: encodeVarintAux g2 (v / 128))
          by_cases hv : v < 128
          · rw [if_pos hv, if_pos hv]
          · rw [if_neg hv, if_neg hv,
                ih (v / 128) (by omega) g1 g2 (by omega) (by omega)]

theorem encodeVarint_eq (v : Nat) :
    encodeVarint v
      = if v < 128 then [v] else (v % 128 + 128) :: encodeVarint (v / 128) := by
  show encodeVarintAux (v + 1) v = _
  show (if v < 128 then [v] else (v % 128 + 128) :: encodeVarintAux v (v / 128)) = _
  by_cases hv : v < 128
  · rw [if_pos hv, if_pos hv]
  · rw [if_neg hv, if_neg hv,
        encodeVarintAux_irrel (v / 128) v (v / 128 + 1) (by omega) (by omega)]
    rfl

theorem encodeVarint_length (v : Nat) : ∀ k, 1 ≤ k → v < 2 ^ (7 * k) →
    (encodeVarint v).length ≤ k := by
  induction v using Nat.strong_induction_on with
  | _ v ih =>
      intro k hk hv
      rw [encodeVarint_eq]
      by_cases h : v < 128
      · rw [if_pos h]
        simpa using hk
      · rw [if_neg h]
        have hk2 : 2 ≤ k := by
          by_contra hc
          have : k = 1 := by omega
          subst this
          norm_num at hv
          omega
        have hrec : v / 128 < 2 ^ (7 * (k - 1)) := by
          have hsplit : 2 ^ (7 * k) = 2 ^ (7 * (k - 1)) * 128 := by
            rw [show (128 : Nat) = 2 ^ 7 from rfl, ← pow_add]
            congr 1
            omega
          apply Nat.div_lt_of_lt_mul
          omega
        have := ih (v / 128) (Nat.div_lt_self (by omega) (by omega)) (k - 1) (by omega) hrec
        simp only [List.length_cons]
        omega

theorem encodeVarint_bytes (v : Nat) : ∀ b ∈ encodeVarint v, b < 256 := by
  induction v using Nat.strong_induction_on with
  | _ v ih =>
      intro b hb
      rw [encodeVarint_eq] at hb
      by_cases h : v < 128
      · rw [if_pos h] at hb
        rw [List.mem_singleton.mp hb]
        omega
      · rw [if_neg h] at hb
        rcases List.mem_cons.mp hb with h1 | h2
        · omega
        · exact ih (v / 128) (Nat.div_lt_self (by omega) (by omega)) b h2

theorem encodeVarint_ne_nil (v : Nat) : encodeVarint v ≠ [] := by
  rw [encodeVarint_eq]
  by_cases h : v < 128
  · rw [if_pos h]
    simp
  · rw [if_neg h]
    simp

theorem lor_small (b a s : Nat) (hb : b < 2 ^ s) :
    Nat.lor b (a * 2 ^ s) = b + a * 2 ^ s := by
  have h : 2 ^ s * a + b = Nat.lor (2 ^ s * a) b := Nat.mul_add_lt_is_or hb a
  calc Nat.lor b (a * 2 ^ s) = Nat.lor b (2 ^ s * a) := by rw [mul_comm]
    _ = Nat.lor (2 ^ s * a) b := Nat.lor_comm _ _
    _ = 2 ^ s * a + b := h.symm
    _ = b + a * 2 ^ s := by ring

theorem decodeVarintAux_encode (v : Nat) : ∀ (rest : List Nat) (i shift value : Nat),
    value < 2 ^ shift → i + (encodeVarint v).length ≤ 10 →
    decodeVarintAux (encodeVarint v ++ rest) i shift value
      = some (value + v * 2 ^ shift, i + (encodeVarint v).length) := by
  induction v using Nat.strong_induction_on with
  | _ v ih =>
      intro rest i shift value hval hlen
      rw [encodeVarint_eq] at hlen ⊢
      by_cases h : v < 128
      · rw [if_pos h] at hlen ⊢
        show (if 10 ≤ i then none
          else if v < 128 then some (Nat.lor value (v % 128 * 2 ^ shift), i + 1)
          else decodeVarintAux rest (i + 1) (shift + 7) (Nat.lor value (v % 128 * 2 ^ shift)))
            = _
        rw [if_neg (by simp at hlen; omega), if_pos h,
            show v % 128 = v from by omega, lor_small value v shift hval]
        simp
      · rw [if_neg h] at hlen ⊢
        show (if 10 ≤ i then none
          else if v % 128 + 128 < 128 then
            some (Nat.lor value ((v % 128 + 128) % 128 * 2 ^ shift), i + 1)
          else decodeVarintAux (encodeVarint (v / 128) ++ rest) (i + 1) (shift + 7)
            (Nat.lor value ((v % 128 + 128) % 128 * 2 ^ shift))) = _
        have hnil := encodeVarint_ne_nil (v / 128)
        have hlen1 : 1 ≤ (encodeVarint (v / 128)).length :=
          Nat.one_le_iff_ne_zero.mpr (fun hz => hnil (List.eq_nil_of_length_eq_zero hz))
        simp only [List.length_cons] at hlen
        rw [if_neg (by omega), if_neg (by omega),
            show (v % 128 + 128) % 128 = v % 128 from by omega,
            lor_small value (v % 128) shift hval]
        have hv2 : value + v % 128 * 2 ^ shift < 2 ^ (shift + 7) := by
          have h128 : v % 128 < 128 := Nat.mod_lt _ (by omega)
          rw [pow_add]
          have : v % 128 * 2 ^ shift ≤ 127 * 2 ^ shift :=
            Nat.mul_le_mul_right _ (by omega)
          omega
        rw [ih (v / 128) (Nat.div_lt_self (by omega) (by omega)) rest (i + 1) (shift + 7)
            (value + v % 128 * 2 ^ shift) hv2 (by omega)]
        have harith : value + v % 128 * 2 ^ shift + v / 128 * 2 ^ (shift + 7)
            = value + v * 2 ^ shift := by
          rw [pow_add]
          have : v % 128 + 128 * (v / 128) = v := Nat.mod_add_div v 128
          nlinarith [this]
        rw [harith]
        simp only [List.length_cons, Option.some.injEq, Prod.mk.injEq]
        exact ⟨trivial, by omega⟩

theorem decodeVarint_encodeVarint (v : Nat) (rest : List Nat) (hv : v < 2 ^ 70) :
    decodeVarint (encodeVarint v ++ rest) = some (v, (encodeVarint v).length) := by
  unfold decodeVarint
  rw [decodeVarintAux_encode v rest 0 0 0 (by omega)
      (by simpa using encodeVarint_length v 10 (by omega) hv)]
  simp

theorem keccakRound_length (A : List Nat) (rc : Nat) : (keccakRound A rc).length = 25 := by
  unfold keccakRound keccakChi
  simp

theorem foldl_round_length (rcs : List Nat) (A : List Nat) (hA : A.length = 25) :
    (rcs.foldl keccakRound A).length = 25 := by
  induction rcs generalizing A with
  | nil => simpa using hA
  | cons rc t ih => exact ih (keccakRound A rc) (keccakRound_length A rc)

theorem keccakAbsorbBlock_length (A block : List Nat) :
    (keccakAbsorbBlock A block).length = 25 := by
  unfold keccakAbsorbBlock keccakF
  apply foldl_round_length
  simp

theorem keccakAbsorb_length (f : Nat) : ∀ (A bs : List Nat), A.length = 25 →
    (keccakAbsorb f A bs).length = 25 := by
  induction f with
  | zero =>
      intro A bs hA
      match bs with
      | [] => exact hA
      | b :: t => exact hA
  | succ g ih =>
      intro A bs hA
      match bs with
      | [] => exact hA
      | b :: t => exact ih _ _ (keccakAbsorbBlock_length _ _)

theorem flatten_map_wordToBytes8_length (ws : List Nat) :
    ((ws.map wordToBytes8).flatten).length = 8 * ws.length := by
  induction ws with
  | nil => rfl
  | cons w t ih =>
      simp only [List.map_cons, List.flatten_cons, List.length_append, ih, List.length_cons]
      show 8 + 8 * t.length = 8 * (t.length + 1)
      ring

theorem keccak256_length (msg : List Nat) : (keccak256 msg).length = 32 := by
  show (((keccakAbsorb ((msg ++ keccakPad msg.length).length + 1) (List.replicate 25 0)
    (msg ++ keccakPad msg.length)).take 4).map wordToBytes8).flatten.length = 32
  rw [flatten_map_wordToBytes8_length, List.length_take,
      keccakAbsorb_length _ _ _ (by simp)]
  omega

theorem wordToBytes8_lt (w : Nat) : ∀ b ∈ wordToBytes8 w, b < 256 := by
  intro b hb
  simp only [wordToBytes8, List.mem_cons, List.not_mem_nil, or_false] at hb
  rcases hb with h | h | h | h | h | h | h | h <;> omega

theorem keccak256_bytes_lt (msg : List Nat) : ∀ b ∈ keccak256 msg, b < 256 := by
  intro b hb
  have hb2 : b ∈ (((keccakAbsorb ((msg ++ keccakPad msg.length).length + 1)
      (List.replicate 25 0) (msg ++ keccakPad msg.length)).take 4).map
      wordToBytes8).flatten := hb
  rw [List.mem_flatten] at hb2
  obtain ⟨l, hl, hbl⟩ := hb2
  rw [List.mem_map] at hl
  obtain ⟨w, _, hw⟩ := hl
  rw [← hw] at hbl
  exact wordToBytes8_lt w b hbl

theorem decodeAddress_encodeAddress (tag : Nat) (data : List Nat) (htag : tag < 2 ^ 70)
    (hdata : ∀ b ∈ data, b < 256) :
    decodeAddress (encodeAddress tag data) = some (tag, data) := by
  have hbytes : ∀ b ∈ (encodeVarint tag ++ data)
      ++ (keccak256 (encodeVarint tag ++ data)).take 4, b < 256 := by
    intro b hb
    rcases List.mem_append.mp hb with h | h
    · rcases List.mem_append.mp h with h1 | h2
      · exact encodeVarint_bytes tag b h1
      · exact hdata b h2
    · exact keccak256_bytes_lt _ b (List.mem_of_mem_take h)
  have hdec : b58Decode (encodeAddress tag data)
      = some ((encodeVarint tag ++ data)
          ++ (keccak256 (encodeVarint tag ++ data)).take 4) :=
    b58Decode_b58Encode _ hbytes
  have hvlen : 1 ≤ (encodeVarint tag).length :=
    Nat.one_le_iff_ne_zero.mpr
      (fun hz => encodeVarint_ne_nil tag (List.eq_nil_of_length_eq_zero hz))
  have hcklen : ((keccak256 (encodeVarint tag ++ data)).take 4).length = 4 := by
    rw [List.length_take, keccak256_length]
    omega
  have hlen : ((encodeVarint tag ++ data)
      ++ (keccak256 (encodeVarint tag ++ data)).take 4).length
        = (encodeVarint tag).length + data.length + 4 := by
    simp only [List.length_append, hcklen]
  unfold decodeAddress
  rw [hdec]
  show (if ((encodeVarint tag ++ data)
      ++ (keccak256 (encodeVarint tag ++ data)).take 4).length ≤ 4 then none else _)
        = some (tag, data)
  rw [if_neg (by omega)]
  have hcut : ((encodeVarint tag ++ data)
      ++ (keccak256 (encodeVarint tag ++ data)).take 4).length - 4
        = (encodeVarint tag ++ data).length := by
    simp only [List.length_append, hcklen]
    omega
  rw [hcut, List.drop_left, List.take_left]
  rw [if_neg (by simp)]
  rw [decodeVarint_encodeVarint tag data htag]
  show some (tag, (encodeVarint tag ++ data).drop (encodeVarint tag).length)
    = some (tag, data)
  rw [List.drop_left]

/-- C6 (amended): for every tag **below `2⁷⁰`** (so that its varint fits
the decoder's 10-byte cap) and every byte payload,
`decodeAddress (encodeAddress tag payload)` succeeds and returns exactly
the original tag and payload; the encoded string is the CryptoNote
block-based base58 encoding of `varint(tag) ‖ payload ‖ keccak256(varint(tag)
‖ payload)[0..4]`; and every block of at most 8 bytes encodes to exactly
`{0,2,3,5,6,7,9,10,11}[n]` base58 characters for its byte length `n`
(full 8-byte blocks to exactly 11). -/
theorem claim_C6_address_codec (tag : Nat) (payload : List Nat) (htag : tag < 2 ^ 70)
    (hdata : ∀ b ∈ payload, b < 256) :
    decodeAddress (encodeAddress tag payload) = some (tag, payload) ∧
    encodeAddress tag payload
      = b58Encode ((encodeVarint tag ++ payload)
          ++ (keccak256 (encodeVarint tag ++ payload)).take 4) ∧
    (∀ block : List Nat, (∀ b ∈ block, b < 256) → block.length ≤ 8 →
      (encodeBlock block).length = BASE58_ENCODED_BLOCK_SIZES.getD block.length 0) ∧
    (∀ block : List Nat, (∀ b ∈ block, b < 256) → block.length = 8 →
      (encodeBlock block).length = 11) := by
  refine ⟨decodeAddress_encodeAddress tag payload htag hdata, rfl, ?_, ?_⟩
  · intro block hb h8
    exact encodeBlock_length block h8 hb
  · intro block hb h8
    rw [encodeBlock_length block (by omega) hb, h8]
    rfl

/-- C6, counterexample to the unamended claim: the claim quantifies over
*every* varint tag, but `decodeVarint` refuses varints longer than 10
bytes, so the smallest 11-byte-varint tag `2⁷⁰` encodes to an address
that `decodeAddress` rejects. -/
theorem claim_C6_counterexample :
    decodeAddress (encodeAddress (2 ^ 70) []) = none := by decide

/-- C6 witness: the round trip at the mainnet address-prefix tag with a
64-byte payload. -/
theorem claim_C6_witness :
    ((0x3ef318 : Nat) < 2 ^ 70 ∧ ∀ b ∈ List.replicate 64 (7 : Nat), b < 256) ∧
    decodeAddress (encodeAddress 0x3ef318 (List.replicate 64 7))
      = some (0x3ef318, List.replicate 64 7) :=
  ⟨⟨by decide, by decide⟩,
   (claim_C6_address_codec 0x3ef318 (List.replicate 64 7) (by decide) (by decide)).1⟩

/-! ## Sweep input selection — transfer.js (`sweep`)

`src/src/wallet/transfer.js` contains an uncapped `sweep`; the claim's
second source, `src/test/debug-tx.js` (lines 444–600), carries the later
copy of `sweep` with the `MAX_SWEEP_INPUTS = 60` weight cap, the carrot
secret/commitment filter, the single destination and `changeAddress:
null`.  That capped copy is embedded here.  The storage query
`getOutputs({isSpent: false, isFrozen: false, assetType})` and
`o.isSpendable(height)` (`unlock_height ≤ tip height`, spec §3) live in
the absent wallet-store.js and are modelled from the spec; the fee
estimator and the parsed destination address are abstract parameters. -/

/-- One entry of the `destinations` array passed to `buildTransaction`. -/
structure SweepDestination where
  viewPublicKey : String
  spendPublicKey : String
  isSubaddress : Bool
  amount : Nat
  deriving Repr, DecidableEq

/-- The transaction-build parameters the sweep assembles. -/
structure SweepTxParams where
  inputs : List WalletOutput
  destinations : List SweepDestination
  changeAddress : Option String
  fee : Nat
  deriving Repr, DecidableEq

/-- Modelled from the spec: `o.isSpendable(height)` of wallet-store.js —
an output is spendable when the chain tip has reached its unlock height
(spec §3). -/
def WalletOutput.isSpendable (o : WalletOutput) (height : Nat) : Bool :=
  decide (o.unlockHeight ≤ height)

/-- The spendable set of `sweep`: the storage query
`getOutputs({isSpent: false, isFrozen: false, assetType})` followed by
the source's filter `o.isSpendable(currentHeight)` and
`!(o.isCarrot && (!o.carrotSharedSecret || !o.commitment))`. -/
def sweepSpendable (outs : List WalletOutput) (currentHeight : Nat)
    (assetType : String) : List WalletOutput :=
  (outs.filter (fun o => !o.isSpent && !o.isFrozen && o.assetType == assetType)).filter
    (fun o => o.isSpendable currentHeight &&
      !(o.isCarrot && (o.carrotSharedSecret.isNone || o.commitment.isNone)))

/-- Stable insertion for the descending-amount sort. -/
def insertDesc (o : WalletOutput) : List WalletOutput → List WalletOutput
  | [] => [o]
  | x :: xs => if o.amount < x.amount then x :: insertDesc o xs else o :: x :: xs

/-- The source's `spendable.sort((a, b) => b.amount > a.amount ? 1 :
b.amount < a.amount ? -1 : 0)`: a stable sort by descending amount. -/
def sortByAmountDesc : List WalletOutput → List WalletOutput
  | [] => []
  | o :: t => insertDesc o (sortByAmountDesc t)

/-- The input list after the `MAX_SWEEP_INPUTS = 60` cap: sort by
descending amount and keep the first 60, only when more than 60 outputs
are spendable. -/
def sweepSelected (outs : List WalletOutput) (currentHeight : Nat)
    (assetType : String) : List WalletOutput :=
  if 60 < (sweepSpendable outs currentHeight assetType).length then
    (sortByAmountDesc (sweepSpendable outs currentHeight assetType)).take 60
  else sweepSpendable outs currentHeight assetType

/-- `totalAmount` of `sweep`. -/
def sweepTotal (outs : List WalletOutput) (currentHeight : Nat)
    (assetType : String) : Nat :=
  ((sweepSelected outs currentHeight assetType).map WalletOutput.amount).sum

/-- `estimatedFee` of `sweep`: the fee estimator at `spendable.length`
inputs and one output. -/
def sweepFee (outs : List WalletOutput) (currentHeight : Nat) (assetType : String)
    (feeFn : Nat → Nat → Nat) : Nat :=
  feeFn (sweepSelected outs currentHeight assetType).length 1

/-- The single destination `sweep` passes to `buildTransaction`. -/
def sweepDestination (pv ps : String) (psub : Bool) (amt : Nat) : SweepDestination :=
  { viewPublicKey := pv, spendPublicKey := ps, isSubaddress := psub, amount := amt }

/-- `sweep` of the debug-tx.js copy of transfer.js, up to the
`buildTransaction` call: input selection, fee, single destination, no
change (`none` for the errors the source throws). -/
def sweep (outs : List WalletOutput) (currentHeight : Nat) (assetType : String)
    (feeFn : Nat → Nat → Nat) (parsedView parsedSpend : String)
    (parsedIsSub : Bool) : Option SweepTxParams :=
  if (sweepSpendable outs currentHeight assetType).isEmpty then none
  else
    if sweepTotal outs currentHeight assetType
        ≤ sweepFee outs currentHeight assetType feeFn then none
    else some
      { inputs := sweepSelected outs currentHeight assetType
        destinations := [sweepDestination parsedView parsedSpend parsedIsSub
          (sweepTotal outs currentHeight assetType
            - sweepFee outs currentHeight assetType feeFn)]
        changeAddress := none
        fee := sweepFee outs currentHeight assetType feeFn }

theorem isSome_of_isNone_false {α : Type} (o : Option α) (h : o.isNone = false) :
    o.isSome = true := by
  cases o with
  | none => simp at h
  | some a => rfl

theorem insertDesc_length (o : WalletOutput) (l : List WalletOutput) :
    (insertDesc o l).length = l.length + 1 := by
  induction l with
  | nil => rfl
  | cons x xs ih =>
      unfold insertDesc
      by_cases h : o.amount < x.amount
      · rw [if_pos h]
        simp only [List.length_cons, ih]
      · rw [if_neg h]
        rfl

theorem sortByAmountDesc_length (l : List WalletOutput) :
    (sortByAmountDesc l).length = l.length := by
  induction l with
  | nil => rfl
  | cons o t ih =>
      unfold sortByAmountDesc
      rw [insertDesc_length, ih]
      rfl

theorem insertDesc_mem (a o : WalletOutput) (l : List WalletOutput) :
    a ∈ insertDesc o l ↔ a = o ∨ a ∈ l := by
  induction l with
  | nil => simp [insertDesc]
  | cons x xs ih =>
      unfold insertDesc
      by_cases h : o.amount < x.amount
      · rw [if_pos h]
        simp only [List.mem_cons, ih]
        tauto
      · rw [if_neg h]
        simp only [List.mem_cons]

theorem sortByAmountDesc_mem (a : WalletOutput) (l : List WalletOutput) :
    a ∈ sortByAmountDesc l ↔ a ∈ l := by
  induction l with
  | nil => simp [sortByAmountDesc]
  | cons o t ih =>
      unfold sortByAmountDesc
      rw [insertDesc_mem]
      simp only [List.mem_cons, ih]

theorem sweepSelected_subset (outs : List WalletOutput) (h : Nat) (asset : String)
    (o : WalletOutput) (ho : o ∈ sweepSelected outs h asset) :
    o ∈ sweepSpendable outs h asset := by
  unfold sweepSelected at ho
  by_cases hc : 60 < (sweepSpendable outs h asset).length
  · rw [if_pos hc] at ho
    exact (sortByAmountDesc_mem o _).mp (List.mem_of_mem_take ho)
  · rwa [if_neg hc] at ho

theorem sweepSelected_length_le (outs : List WalletOutput) (h : Nat) (asset : String) :
    (sweepSelected outs h asset).length ≤ 60 := by
  unfold sweepSelected
  by_cases hc : 60 < (sweepSpendable outs h asset).length
  · rw [if_pos hc, List.length_take]
    omega
  · rw [if_neg hc]
    omega

/-- C3: whenever `sweep` builds a transaction, it consumes only spendable,
unfrozen, unspent outputs of the chosen asset type whose unlock height has
been reached (and whose carrot secrets are present when carrot), never
more than 60 inputs; it consumes **all** spendable outputs when at most
60 exist, and exactly the 60-input cap otherwise; and it creates a single
destination output carrying the whole swept amount minus the fee, with no
change output. -/
theorem claim_C3_sweep (outs : List WalletOutput) (currentHeight : Nat)
    (assetType : String) (feeFn : Nat → Nat → Nat) (pv ps : String) (psub : Bool)
    (tx : SweepTxParams)
    (hres : sweep outs currentHeight assetType feeFn pv ps psub = some tx) :
    tx.inputs.length ≤ 60 ∧
    (∀ o ∈ tx.inputs, o ∈ outs ∧ o.isSpent = false ∧ o.isFrozen = false ∧
      o.assetType = assetType ∧ o.unlockHeight ≤ currentHeight ∧
      (o.isCarrot = true → o.carrotSharedSecret.isSome ∧ o.commitment.isSome)) ∧
    ((sweepSpendable outs currentHeight assetType).length ≤ 60 →
      tx.inputs = sweepSpendable outs currentHeight assetType) ∧
    (60 < (sweepSpendable outs currentHeight assetType).length →
      tx.inputs.length = 60) ∧
    tx.destinations.length = 1 ∧
    tx.changeAddress = none ∧
    tx.fee = feeFn tx.inputs.length 1 ∧
    (tx.destinations.map SweepDestination.amount).sum + tx.fee
      = (tx.inputs.map WalletOutput.amount).sum := by
  unfold sweep at hres
  by_cases h1 : (sweepSpendable outs currentHeight assetType).isEmpty
  · rw [if_pos h1] at hres
    exact absurd hres (by simp)
  · rw [if_neg h1] at hres
    by_cases h2 : sweepTotal outs currentHeight assetType
        ≤ sweepFee outs currentHeight assetType feeFn
    · rw [if_pos h2] at hres
      exact absurd hres (by simp)
    · rw [if_neg h2] at hres
      have htx := (Option.some.inj hres).symm
      subst htx
      refine ⟨sweepSelected_length_le outs currentHeight assetType, ?_, ?_, ?_, rfl, rfl,
        rfl, ?_⟩
      · intro o ho
        have hsp := sweepSelected_subset outs currentHeight assetType o ho
        unfold sweepSpendable at hsp
        have h3 := List.mem_filter.mp hsp
        have h4 := List.mem_filter.mp h3.1
        refine ⟨h4.1, ?_⟩
        have hb1 := h4.2
        have hb2 := h3.2
        simp only [Bool.and_eq_true, Bool.not_eq_true', beq_iff_eq] at hb1 hb2
        refine ⟨hb1.1.1, hb1.1.2, hb1.2, ?_, ?_⟩
        · have := hb2.1
          rw [WalletOutput.isSpendable, decide_eq_true_eq] at this
          exact this
        · intro hcar
          have hcc := hb2.2
          rw [hcar, Bool.true_and] at hcc
          have hor : o.carrotSharedSecret.isNone = false ∧ o.commitment.isNone = false := by
            cases hx : o.carrotSharedSecret.isNone with
            | true => rw [hx, Bool.true_or] at hcc; exact absurd hcc (by simp)
            | false =>
                cases hy : o.commitment.isNone with
                | true => rw [hx, hy] at hcc; exact absurd hcc (by simp)
                | false => exact ⟨rfl, rfl⟩
          exact ⟨isSome_of_isNone_false _ hor.1, isSome_of_isNone_false _ hor.2⟩
      · intro hle
        show sweepSelected outs currentHeight assetType = _
        unfold sweepSelected
        rw [if_neg (by omega)]
      · intro hgt
        show (sweepSelected outs currentHeight assetType).length = 60
        unfold sweepSelected
        rw [if_pos hgt, List.length_take, sortByAmountDesc_length]
        omega
      · show (sweepTotal outs currentHeight assetType
            - sweepFee outs currentHeight assetType feeFn + 0)
            + sweepFee outs currentHeight assetType feeFn
            = sweepTotal outs currentHeight assetType
        omega

/-- A demonstration wallet: two spendable outputs and one frozen one. -/
def c3Outs : List WalletOutput :=
  [{ keyImage := "ki1", blockHeight := 1, amount := 100 },
   { keyImage := "ki2", blockHeight := 2, amount := 50 },
   { keyImage := "ki3", blockHeight := 3, amount := 70, isFrozen := true }]

/-- The transaction parameters the sweep of `c3Outs` produces. -/
def c3Tx : SweepTxParams :=
  { inputs := [{ keyImage := "ki1", blockHeight := 1, amount := 100 },
               { keyImage := "ki2", blockHeight := 2, amount := 50 }]
    destinations := [sweepDestination "v" "s" false 145]
    changeAddress := none
    fee := 5 }

/-- C3 witness: the sweep of the demonstration wallet at the concrete
result. -/
theorem claim_C3_witness :
    sweep c3Outs 10 "SAL" (fun _ _ => 5) "v" "s" false = some c3Tx ∧
    (c3Tx.inputs.length ≤ 60 ∧ c3Tx.destinations.length = 1 ∧
      c3Tx.changeAddress = none) := by
  have h := claim_C3_sweep c3Outs 10 "SAL" (fun _ _ => 5) "v" "s" false c3Tx rfl
  exact ⟨rfl, h.1, h.2.2.2.2.1, h.2.2.2.2.2.1⟩
/-! ## Alternative-chain manager — src/rpc/client.js (in the snapshot)

`AlternativeChainManager` (client.js lines 512–910) is embedded
faithfully below.  Its dependencies from consensus.js (`ChainState`,
`getMedianTimestamp`, `validateBlockTimestamp`, the constants) are not in
the snapshot; they are modelled from the spec (§4.6–4.8: the chain state
arrays, median of the sorted window — average of the two middles for even
windows —, and `timestamp > median ∧ timestamp ≤ now + future limit`) and
from the `ChainState` behaviour exercised by test/blockchain.test.js.
`nextDifficultyV2`, the block-weight callback, the optional
`validateBlock` callback and the wall clock `Date.now()` are universally
quantified parameters.  Difficulties are `Int` (JS `BigInt`); `Map` and
`Set` are association lists in insertion order. -/

/-- The parsed block fed to `handleBlock` (`prevHash`, `timestamp`, and
the optional `difficulty`, `undefined` ↦ `none`). -/
structure Block where
  prevHash : String
  timestamp : Nat
  difficulty : Option Int := none
  deriving Repr, DecidableEq

/-- `BlockExtendedInfo` of client.js (the fields the manager uses). -/
structure BlockExtendedInfo where
  block : Block
  hash : String
  height : Nat
  blockWeight : Nat
  cumulativeDifficulty : Int := 0
  deriving Repr, DecidableEq

/-- `BlockVerificationContext` of client.js. -/
structure BlockVerificationContext where
  addedToMainChain : Bool := false
  addedToAltChain : Bool := false
  markedAsOrphaned : Bool := false
  alreadyExists : Bool := false
  partialBlockReward : Bool := false
  deriving Repr, DecidableEq

/-- Modelled from the spec: `ChainState` of consensus.js (§4.6) — the
main chain as parallel arrays of timestamps, cumulative difficulties,
weights and block hashes. -/
structure ChainState where
  timestamps : List Nat := []
  cumulativeDifficulties : List Int := []
  weights : List Nat := []
  blockHashes : List String := []
  deriving Repr, DecidableEq

/-- `height`: the number of blocks. -/
def ChainState.height (cs : ChainState) : Nat :=
  cs.blockHashes.length

/-- `getCumulativeDifficulty`: the last cumulative difficulty (0 for an
empty chain). -/
def ChainState.getCumulativeDifficulty (cs : ChainState) : Int :=
  cs.cumulativeDifficulties.getLastD 0

/-- `addBlock(timestamp, difficulty, weight, hash)`: append one block;
the stored cumulative difficulty is the previous total plus the block's
difficulty. -/
def ChainState.addBlock (cs : ChainState) (ts : Nat) (diff : Int) (w : Nat)
    (hash : String) : ChainState :=
  { timestamps := cs.timestamps ++ [ts]
    cumulativeDifficulties :=
      cs.cumulativeDifficulties ++ [cs.getCumulativeDifficulty + diff]
    weights := cs.weights ++ [w]
    blockHashes := cs.blockHashes ++ [hash] }

/-- `Array.prototype.indexOf` over strings (`none` for `-1`). -/
def indexOfStr (l : List String) (w : String) : Option Nat :=
  go l 0
where
  go : List String → Nat → Option Nat
    | [], _ => none
    | x :: xs, i => if x = w then some i else go xs (i + 1)

/-- `findBlockByHash(hash)`: the height of the hash in the main chain. -/
def ChainState.findBlockByHash (cs : ChainState) (hash : String) : Option Nat :=
  indexOfStr cs.blockHashes hash

/-- `getTipHash()` (`none` for an empty chain, JS `undefined`). -/
def ChainState.getTipHash (cs : ChainState) : Option String :=
  cs.blockHashes.getLast?

/-- `getBlockHash(height)`. -/
def ChainState.getBlockHash (cs : ChainState) (h : Nat) : Option String :=
  cs.blockHashes.get? h

/-- The record `popBlock` hands back for one disconnected block. -/
structure PoppedBlock where
  timestamp : Nat
  difficulty : Int
  weight : Nat
  blockHash : String
  deriving Repr, DecidableEq

/-- The per-block difficulty at height `i`, reconstructed as the delta of
stored cumulative difficulties. -/
def ChainState.blockDifficulty (cs : ChainState) (i : Nat) : Int :=
  cs.cumulativeDifficulties.getD i 0
    - (if i = 0 then 0 else cs.cumulativeDifficulties.getD (i - 1) 0)

/-- The popped record for height `i`. -/
def ChainState.poppedAt (cs : ChainState) (i : Nat) : PoppedBlock :=
  { timestamp := cs.timestamps.getD i 0
    difficulty := cs.blockDifficulty i
    weight := cs.weights.getD i 0
    blockHash := cs.blockHashes.getD i "" }

/-- `rollbackToHeight(n)`: keep the first `n` blocks; the popped blocks
are returned newest-first. -/
def ChainState.rollbackToHeight (cs : ChainState) (n : Nat) :
    ChainState × List PoppedBlock :=
  ({ timestamps := cs.timestamps.take n
     cumulativeDifficulties := cs.cumulativeDifficulties.take n
     weights := cs.weights.take n
     blockHashes := cs.blockHashes.take n },
   (((List.range cs.height).drop n).reverse).map cs.poppedAt)

/-- Modelled from the spec: `BLOCKCHAIN_TIMESTAMP_CHECK_WINDOW` (60). -/
def BLOCKCHAIN_TIMESTAMP_CHECK_WINDOW : Nat := 60

/-- Modelled from the spec: the configured future-time limit of
consensus.js (the CryptoNote two-hour window). -/
def CRYPTONOTE_BLOCK_FUTURE_TIME_LIMIT : Nat := 7200

/-- Modelled from the spec: `DIFFICULTY_TARGET_V2` (120-second target). -/
def DIFFICULTY_TARGET_V2 : Nat := 120

/-- Modelled from the spec: the alt-block livetime (7 days in seconds). -/
def CRYPTONOTE_MEMPOOL_TX_FROM_ALT_BLOCK_LIVETIME : Nat := 604800

/-- Ascending insertion for the median sort. -/
def insertLe (x : Nat) : List Nat → List Nat
  | [] => [x]
  | y :: ys => if x ≤ y then x :: y :: ys else y :: insertLe x ys

/-- Ascending sort of timestamps. -/
def sortNats : List Nat → List Nat
  | [] => []
  | x :: xs => insertLe x (sortNats xs)

/-- Modelled from the spec: `getMedianTimestamp` of consensus.js — the
median of the sorted window, averaging the two middle values for even
window sizes. -/
def getMedianTimestamp (ts : List Nat) : Nat :=
  let sorted := sortNats ts
  if sorted.length = 0 then 0
  else if sorted.length % 2 = 1 then sorted.getD (sorted.length / 2) 0
  else (sorted.getD (sorted.length / 2 - 1) 0 + sorted.getD (sorted.length / 2) 0) / 2

/-- Modelled from the spec: `validateBlockTimestamp(ts, recent, now)` of
consensus.js — the timestamp must exceed the median of the recent window
and stay within the future limit. -/
def validateBlockTimestamp (ts : Nat) (recent : List Nat) (now : Nat) : Bool :=
  decide (getMedianTimestamp recent < ts) &&
    decide (ts ≤ now + CRYPTONOTE_BLOCK_FUTURE_TIME_LIMIT)

/-- The context object the manager passes to `validateBlockFn`. -/
structure ValidateCtx where
  height : Nat
  isAlt : Bool
  deriving Repr, DecidableEq

/-- The manager's injected dependencies: the block-weight callback, the
optional `validateBlock` callback (JS `null` ↦ `none`), the
`nextDifficultyV2` of consensus.js, and the wall clock
`Math.floor(Date.now() / 1000)`. -/
structure AcmEnv where
  getBlockWeightFn : Block → Nat
  validateBlockFn : Option (Block → ValidateCtx → Bool)
  nextDifficultyV2 : List Nat → List Int → Int
  now : Nat

/-- `if (this.validateBlockFn && !this.validateBlockFn(block, ctx))`:
validation passes when no callback is installed. -/
def runValidate (env : AcmEnv) (b : Block) (ctx : ValidateCtx) : Bool :=
  match env.validateBlockFn with
  | none => true
  | some f => f b ctx

/-- The manager's mutable state: the chain state, the alt-block `Map`
(insertion-ordered association list) and the invalid-hash `Set`. -/
structure AltChainManagerState where
  chainState : ChainState
  altBlocks : List (String × BlockExtendedInfo) := []
  invalidBlocks : List String := []
  deriving Repr

/-- `Map.prototype.has`. -/
def mapHas (m : List (String × BlockExtendedInfo)) (k : String) : Bool :=
  (m.lookup k).isSome

/-- `Map.prototype.set`: update in place, else append. -/
def mapSet (m : List (String × BlockExtendedInfo)) (k : String)
    (v : BlockExtendedInfo) : List (String × BlockExtendedInfo) :=
  match m with
  | [] => [(k, v)]
  | (k0, v0) :: t => if k0 = k then (k0, v) :: t else (k0, v0) :: mapSet t k v

/-- `Map.prototype.delete`. -/
def mapDelete (m : List (String × BlockExtendedInfo)) (k : String) :
    List (String × BlockExtendedInfo) :=
  m.filter (fun p => p.1 ≠ k)

/-- `_pruneAltBlocks()`: drop alt blocks more than
`LIVETIME / TARGET` blocks behind the main height. -/
def pruneAltBlocks (mainHeight : Nat) (alts : List (String × BlockExtendedInfo)) :
    List (String × BlockExtendedInfo) :=
  alts.filter (fun p =>
    ¬ (CRYPTONOTE_MEMPOOL_TX_FROM_ALT_BLOCK_LIVETIME / DIFFICULTY_TARGET_V2
        < mainHeight - p.2.height))

/-- `_addToMainChain(block, blockHash, bvc)`. -/
def addToMainChain (env : AcmEnv) (st : AltChainManagerState) (block : Block)
    (blockHash : String) : AltChainManagerState × BlockVerificationContext :=
  if BLOCKCHAIN_TIMESTAMP_CHECK_WINDOW ≤ st.chainState.timestamps.length ∧
      validateBlockTimestamp block.timestamp
        (st.chainState.timestamps.drop
          (st.chainState.timestamps.length - BLOCKCHAIN_TIMESTAMP_CHECK_WINDOW))
        env.now = false then
    ({ st with invalidBlocks := blockHash :: st.invalidBlocks },
     { markedAsOrphaned := true })
  else if runValidate env block { height := st.chainState.height, isAlt := false }
      = false then
    ({ st with invalidBlocks := blockHash :: st.invalidBlocks },
     { markedAsOrphaned := true })
  else
    let cs2 := st.chainState.addBlock block.timestamp (block.difficulty.getD 0)
      (env.getBlockWeightFn block) blockHash
    ({ chainState := cs2
       altBlocks := pruneAltBlocks cs2.height st.altBlocks
       invalidBlocks := st.invalidBlocks },
     { addedToMainChain := true })

/-- The backward walk of `_buildAltChain`: follow `prevHash` links through
the alt-block map, prepending each hit (the fuel — one more than the map
size — covers every acyclic walk; the map's links are acyclic for every
state the manager builds). -/
def buildAltChainAux : Nat → List (String × BlockExtendedInfo) → String →
    List BlockExtendedInfo → List BlockExtendedInfo × String
  | 0, _, cur, acc => (acc, cur)
  | f + 1, alts, cur, acc =>
      match alts.lookup cur with
      | none => (acc, cur)
      | some bei => buildAltChainAux f alts bei.block.prevHash (bei :: acc)

/-- The result record of `_buildAltChain`. -/
structure BuiltAltChain where
  altChain : List BlockExtendedInfo
  splitHeight : Nat
  timestamps : List Nat
  cumulativeDifficulties : List Int
  deriving Repr

/-- `_buildAltChain(prevHash)`: the alt chain back to the split point,
with the combined main-window + alt timestamps and cumulative
difficulties (the disconnected case returns split 0 and empty windows,
as the source does). -/
def buildAltChain (cs : ChainState) (alts : List (String × BlockExtendedInfo))
    (prevHash : String) : BuiltAltChain :=
  let walk := buildAltChainAux (alts.length + 1) alts prevHash []
  match cs.findBlockByHash walk.2 with
  | none =>
      { altChain := walk.1, splitHeight := 0, timestamps := [],
        cumulativeDifficulties := [] }
  | some splitHeight =>
      let windowStart := splitHeight + 1 - BLOCKCHAIN_TIMESTAMP_CHECK_WINDOW
      let idxs := (List.range (splitHeight + 1)).drop windowStart
      { altChain := walk.1
        splitHeight := splitHeight
        timestamps := idxs.map (fun i => cs.timestamps.getD i 0)
          ++ walk.1.map (fun b => b.block.timestamp)
        cumulativeDifficulties := idxs.map (fun i => cs.cumulativeDifficulties.getD i 0)
          ++ walk.1.map (fun b => b.cumulativeDifficulty) }

/-- `_getDifficultyForAltChain`. -/
def getDifficultyForAltChain (env : AcmEnv) (timestamps : List Nat)
    (cumulativeDifficulties : List Int) : Int :=
  if cumulativeDifficulties.length < 2 then 1
  else env.nextDifficultyV2 timestamps cumulativeDifficulties

/-- The application loop of `_switchToAlternativeChain`: validate and
append each alt block, with the difficulty delta taken against the
previous alt block (or the current cumulative difficulty for the first).
Returns the final chain state, the applied blocks, and success. -/
def switchApply (env : AcmEnv) : ChainState → Option Int → List BlockExtendedInfo →
    ChainState × List BlockExtendedInfo × Bool
  | cs, _, [] => (cs, [], true)
  | cs, prevRef, bei :: rest =>
      let refCd : Int := match prevRef with
        | none => cs.getCumulativeDifficulty
        | some c => c
      if runValidate env bei.block { height := cs.height, isAlt := false } = false then
        (cs, [], false)
      else
        let cs2 := cs.addBlock bei.block.timestamp (bei.cumulativeDifficulty - refCd)
          bei.blockWeight bei.hash
        let rec2 := switchApply env cs2 (some bei.cumulativeDifficulty) rest
        (rec2.1, bei :: rec2.2.1, rec2.2.2)

/-- `_rollbackChainSwitching(originalBlocks, rollbackHeight)`: pop back
and re-apply the original blocks oldest-first (they arrive newest-first). -/
def rollbackChainSwitching (cs : ChainState) (originalBlocks : List PoppedBlock)
    (rollbackHeight : Nat) : ChainState :=
  originalBlocks.reverse.foldl
    (fun c b => c.addBlock b.timestamp b.difficulty b.weight b.blockHash)
    (cs.rollbackToHeight rollbackHeight).1

/-- Step 4 of `_switchToAlternativeChain`: re-store the disconnected
blocks as alt blocks, walking the height down from the old tip. -/
def storeDisconnected (cs : ChainState) :
    List (String × BlockExtendedInfo) → List PoppedBlock → Nat →
    List (String × BlockExtendedInfo)
  | alts, [], _ => alts
  | alts, p :: rest, dh =>
      let dh2 := dh - 1
      let alts2 :=
        if p.blockHash ≠ "" then
          mapSet alts p.blockHash
            { block := { prevHash := if 0 < dh2 then (cs.getBlockHash (dh2 - 1)).getD ""
                           else ""
                         timestamp := p.timestamp
                         difficulty := some p.difficulty }
              hash := p.blockHash
              height := dh2
              blockWeight := p.weight
              cumulativeDifficulty := 0 }
        else alts
      storeDisconnected cs alts2 rest dh2

/-- `_switchToAlternativeChain(altChain, splitHeight)`. -/
def switchToAlternativeChain (env : AcmEnv) (st : AltChainManagerState)
    (altChain : List BlockExtendedInfo) (splitHeight : Nat) :
    AltChainManagerState × Bool :=
  let oldHeight := st.chainState.height
  let rb := st.chainState.rollbackToHeight (splitHeight + 1)
  let ap := switchApply env rb.1 none altChain
  if ap.2.2 = false then
    ({ st with chainState := rollbackChainSwitching ap.1 rb.2 (splitHeight + 1) },
     false)
  else
    let alts2 := storeDisconnected ap.1 st.altBlocks rb.2 oldHeight
    ({ chainState := ap.1
       altBlocks := ap.2.1.foldl (fun m a => mapDelete m a.hash) alts2
       invalidBlocks := st.invalidBlocks },
     true)

/-- `_handleAlternativeBlock(block, blockHash, bvc)`. -/
def handleAlternativeBlock (env : AcmEnv) (st : AltChainManagerState)
    (block : Block) (blockHash : String) :
    AltChainManagerState × BlockVerificationContext :=
  let built := buildAltChain st.chainState st.altBlocks block.prevHash
  let altHeight := built.splitHeight + built.altChain.length + 1
  if BLOCKCHAIN_TIMESTAMP_CHECK_WINDOW ≤ built.timestamps.length ∧
      block.timestamp ≤ getMedianTimestamp
        (built.timestamps.drop
          (built.timestamps.length - BLOCKCHAIN_TIMESTAMP_CHECK_WINDOW)) then
    ({ st with invalidBlocks := blockHash :: st.invalidBlocks },
     { markedAsOrphaned := true })
  else if env.now + CRYPTONOTE_BLOCK_FUTURE_TIME_LIMIT < block.timestamp then
    (st, { markedAsOrphaned := true })
  else
    let altDifficulty := getDifficultyForAltChain env built.timestamps
      built.cumulativeDifficulties
    let altCumulativeDifficulty := built.cumulativeDifficulties.getLastD 0
      + altDifficulty
    if runValidate env block { height := altHeight, isAlt := true } = false then
      ({ st with invalidBlocks := blockHash :: st.invalidBlocks },
       { markedAsOrphaned := true })
    else
      let altBlockInfo : BlockExtendedInfo :=
        { block := block, hash := blockHash, height := altHeight,
          blockWeight := env.getBlockWeightFn block,
          cumulativeDifficulty := altCumulativeDifficulty }
      let st2 : AltChainManagerState :=
        { st with altBlocks := mapSet st.altBlocks blockHash altBlockInfo }
      if st2.chainState.getCumulativeDifficulty < altCumulativeDifficulty then
        let sw := switchToAlternativeChain env st2
          (built.altChain ++ [altBlockInfo]) built.splitHeight
        if sw.2 then (sw.1, { addedToMainChain := true })
        else (sw.1, { addedToAltChain := true })
      else (st2, { addedToAltChain := true })

/-- `handleBlock(block, blockHash)`. -/
def handleBlock (env : AcmEnv) (st : AltChainManagerState) (block : Block)
    (blockHash : String) : AltChainManagerState × BlockVerificationContext :=
  if (st.chainState.findBlockByHash blockHash).isSome ∨ mapHas st.altBlocks blockHash then
    (st, { alreadyExists := true })
  else if blockHash ∈ st.invalidBlocks then
    (st, { markedAsOrphaned := true })
  else if block.prevHash ∈ st.invalidBlocks then
    ({ st with invalidBlocks := blockHash :: st.invalidBlocks },
     { markedAsOrphaned := true })
  else if st.chainState.getTipHash = some block.prevHash then
    addToMainChain env st block blockHash
  else if (st.chainState.findBlockByHash block.prevHash).isSome ∨
      mapHas st.altBlocks block.prevHash then
    handleAlternativeBlock env st block blockHash
  else
    (st, { markedAsOrphaned := true })

theorem addBlock_cum (cs : ChainState) (ts : Nat) (diff : Int) (w : Nat) (hash : String) :
    (cs.addBlock ts diff w hash).getCumulativeDifficulty
      = cs.getCumulativeDifficulty + diff := by
  unfold ChainState.addBlock ChainState.getCumulativeDifficulty
  exact List.getLastD_concat _ _ _

/-- The number of result flags `handleBlock` sets. -/
def flagCount (bvc : BlockVerificationContext) : Nat :=
  bvc.alreadyExists.toNat + bvc.markedAsOrphaned.toNat + bvc.addedToMainChain.toNat
    + bvc.addedToAltChain.toNat

theorem addToMainChain_flags (env : AcmEnv) (st : AltChainManagerState) (b : Block)
    (h : String) : flagCount (addToMainChain env st b h).2 = 1 := by
  unfold addToMainChain
  split
  · rfl
  · split
    · rfl
    · rfl

theorem handleAlternativeBlock_flags (env : AcmEnv) (st : AltChainManagerState)
    (b : Block) (h : String) : flagCount (handleAlternativeBlock env st b h).2 = 1 := by
  simp only [handleAlternativeBlock]
  split
  · rfl
  · split
    · rfl
    · split
      · rfl
      · split
        · split
          · rfl
          · rfl
        · rfl

/-- C9: every call of `handleBlock` — for every injected environment,
every manager state, every block and every hash — returns a verification
context in which exactly one of the four flags `alreadyExists`,
`markedAsOrphaned`, `addedToMainChain`, `addedToAltChain` is set. -/
theorem claim_C9_exactly_one_flag (env : AcmEnv) (st : AltChainManagerState)
    (block : Block) (blockHash : String) :
    flagCount (handleBlock env st block blockHash).2 = 1 := by
  unfold handleBlock
  split
  · rfl
  · split
    · rfl
    · split
      · rfl
      · split
        · exact addToMainChain_flags env st block blockHash
        · split
          · exact handleAlternativeBlock_flags env st block blockHash
          · rfl

theorem addToMainChain_main (env : AcmEnv) (st : AltChainManagerState) (b : Block)
    (h : String) (hadd : (addToMainChain env st b h).2.addedToMainChain = true) :
    (addToMainChain env st b h).1.chainState.getCumulativeDifficulty
      = st.chainState.getCumulativeDifficulty + b.difficulty.getD 0 ∧
    (BLOCKCHAIN_TIMESTAMP_CHECK_WINDOW ≤ st.chainState.timestamps.length →
      getMedianTimestamp (st.chainState.timestamps.drop
          (st.chainState.timestamps.length - BLOCKCHAIN_TIMESTAMP_CHECK_WINDOW))
        < b.timestamp ∧
      b.timestamp ≤ env.now + CRYPTONOTE_BLOCK_FUTURE_TIME_LIMIT) := by
  unfold addToMainChain at hadd ⊢
  split at hadd
  · exact Bool.noConfusion hadd
  · split at hadd
    · exact Bool.noConfusion hadd
    · rename_i hts hval
      constructor
      · rw [if_neg hts, if_neg hval]
        exact addBlock_cum st.chainState b.timestamp (b.difficulty.getD 0)
          (env.getBlockWeightFn b) h
      · intro hlen
        have hv : validateBlockTimestamp b.timestamp
            (st.chainState.timestamps.drop
              (st.chainState.timestamps.length - BLOCKCHAIN_TIMESTAMP_CHECK_WINDOW))
            env.now = true := by
          cases hval2 : validateBlockTimestamp b.timestamp
            (st.chainState.timestamps.drop
              (st.chainState.timestamps.length - BLOCKCHAIN_TIMESTAMP_CHECK_WINDOW))
            env.now with
          | true => rfl
          | false => exact absurd ⟨hlen, hval2⟩ hts
        unfold validateBlockTimestamp at hv
        simp only [Bool.and_eq_true, decide_eq_true_eq] at hv
        exact hv

theorem switchApply_last (env : AcmEnv) (last : BlockExtendedInfo) :
    ∀ (pre : List BlockExtendedInfo) (cs : ChainState) (ref : Option Int),
    (match ref with | none => cs.getCumulativeDifficulty | some c => c)
      = cs.getCumulativeDifficulty →
    (switchApply env cs ref (pre ++ [last])).2.2 = true →
    (switchApply env cs ref (pre ++ [last])).1.getCumulativeDifficulty
      = last.cumulativeDifficulty := by
  intro pre
  induction pre with
  | nil =>
      intro cs ref href hsucc
      rcases ref with _ | c
      all_goals
        simp only [List.nil_append, switchApply] at hsucc href ⊢
        split at hsucc
        · exact Bool.noConfusion hsucc
        · rename_i hval
          rw [if_neg hval]
          simp only [addBlock_cum]
          omega
  | cons bei rest ih =>
      intro cs ref href hsucc
      rcases ref with _ | c
      all_goals
        simp only [List.cons_append, switchApply] at hsucc href ⊢
        split at hsucc
        · exact Bool.noConfusion hsucc
        · rename_i hval
          rw [if_neg hval]
          refine ih _ (some bei.cumulativeDifficulty) ?_ hsucc
          show bei.cumulativeDifficulty = _
          simp only [addBlock_cum]
          omega

theorem switch_success_cum (env : AcmEnv) (st : AltChainManagerState)
    (pre : List BlockExtendedInfo) (last : BlockExtendedInfo) (splitHeight : Nat)
    (hsw : (switchToAlternativeChain env st (pre ++ [last]) splitHeight).2 = true) :
    (switchToAlternativeChain env st (pre ++ [last])
        splitHeight).1.chainState.getCumulativeDifficulty
      = last.cumulativeDifficulty := by
  simp only [switchToAlternativeChain] at hsw ⊢
  split at hsw
  · exact Bool.noConfusion hsw
  · rename_i hap
    rw [if_neg hap]
    have hsucc : (switchApply env
        (st.chainState.rollbackToHeight (splitHeight + 1)).1 none (pre ++ [last])).2.2
        = true := by
      cases hx : (switchApply env
          (st.chainState.rollbackToHeight (splitHeight + 1)).1 none (pre ++ [last])).2.2 with
      | true => rfl
      | false => exact absurd hx hap
    exact switchApply_last env last pre _ none rfl hsucc

theorem handleAlternativeBlock_main (env : AcmEnv) (st : AltChainManagerState)
    (b : Block) (h : String)
    (hadd : (handleAlternativeBlock env st b h).2.addedToMainChain = true) :
    st.chainState.getCumulativeDifficulty
      < (handleAlternativeBlock env st b h).1.chainState.getCumulativeDifficulty := by
  simp only [handleAlternativeBlock] at hadd ⊢
  split at hadd
  · exact Bool.noConfusion hadd
  · split at hadd
    · exact Bool.noConfusion hadd
    · split at hadd
      · exact Bool.noConfusion hadd
      · split at hadd
        · split at hadd
          · rename_i hc1 hc2 hval hcmp hsw
            rw [if_neg hc1, if_neg hc2, if_neg hval, if_pos hcmp, if_pos hsw]
            rw [switch_success_cum env _ _ _ _ hsw]
            exact hcmp
          · exact Bool.noConfusion hadd
        · exact Bool.noConfusion hadd

/-- C4 (amended): for every block `handleBlock` admits with
`addedToMainChain`: on the direct tip extension the new cumulative
difficulty is the old one **plus the block's `difficulty` field (0 when
absent)** — strictly increasing exactly when that difficulty is positive —
and, whenever the chain already holds at least 60 timestamps, the block's
timestamp strictly exceeds the median of the last 60 and respects the
future-time limit; on admission through a successful chain switch the
cumulative difficulty strictly increases unconditionally. -/
theorem claim_C4_added_to_main (env : AcmEnv) (st : AltChainManagerState)
    (block : Block) (blockHash : String)
    (hadd : (handleBlock env st block blockHash).2.addedToMainChain = true) :
    (st.chainState.getTipHash = some block.prevHash →
      (handleBlock env st block blockHash).1.chainState.getCumulativeDifficulty
        = st.chainState.getCumulativeDifficulty + block.difficulty.getD 0 ∧
      (0 < block.difficulty.getD 0 →
        st.chainState.getCumulativeDifficulty
          < (handleBlock env st block blockHash).1.chainState.getCumulativeDifficulty) ∧
      (BLOCKCHAIN_TIMESTAMP_CHECK_WINDOW ≤ st.chainState.timestamps.length →
        getMedianTimestamp (st.chainState.timestamps.drop
            (st.chainState.timestamps.length - BLOCKCHAIN_TIMESTAMP_CHECK_WINDOW))
          < block.timestamp ∧
        block.timestamp ≤ env.now + CRYPTONOTE_BLOCK_FUTURE_TIME_LIMIT)) ∧
    (st.chainState.getTipHash ≠ some block.prevHash →
      st.chainState.getCumulativeDifficulty
        < (handleBlock env st block blockHash).1.chainState.getCumulativeDifficulty) := by
  unfold handleBlock at hadd ⊢
  split at hadd
  · exact Bool.noConfusion hadd
  · split at hadd
    · exact Bool.noConfusion hadd
    · split at hadd
      · exact Bool.noConfusion hadd
      · split at hadd
        · rename_i h1 h2 h3 htip
          rw [if_neg h1, if_neg h2, if_neg h3, if_pos htip]
          have hm := addToMainChain_main env st block blockHash hadd
          constructor
          · intro _
            refine ⟨hm.1, ?_, hm.2⟩
            intro hpos
            rw [hm.1]
            omega
          · intro hne
            exact absurd htip hne
        · split at hadd
          · rename_i h1 h2 h3 htip halt
            rw [if_neg h1, if_neg h2, if_neg h3, if_neg htip, if_pos halt]
            have hm := handleAlternativeBlock_main env st block blockHash hadd
            constructor
            · intro htip2
              exact absurd htip2 htip
            · intro _
              exact hm
          · exact Bool.noConfusion hadd

/-- The environment of the C4 counterexample: no validators, an arbitrary
clock. -/
def c4Env : AcmEnv :=
  { getBlockWeightFn := fun _ => 300000
    validateBlockFn := none
    nextDifficultyV2 := fun _ _ => 1
    now := 1000000 }

/-- A one-block main chain. -/
def c4State : AltChainManagerState :=
  { chainState :=
      { timestamps := [1000], cumulativeDifficulties := [100],
        weights := [300000], blockHashes := ["g"] } }

/-- A tip-extending block whose `difficulty` field is 0. -/
def c4Block : Block :=
  { prevHash := "g", timestamp := 1120, difficulty := some 0 }

/-- C4, counterexample to the unamended claim: a block with `difficulty`
0 (the source also defaults a *missing* difficulty to `0n`) is admitted
as `added_to_main` while the cumulative difficulty stays unchanged — it
is not strictly increasing on every admission. -/
theorem claim_C4_counterexample :
    (handleBlock c4Env c4State c4Block "b1").2.addedToMainChain = true ∧
    (handleBlock c4Env c4State c4Block "b1").1.chainState.getCumulativeDifficulty
      = c4State.chainState.getCumulativeDifficulty := by
  constructor
  · rfl
  · rfl

/-- A positive-difficulty tip extension for the C4 witness. -/
def c4Block2 : Block :=
  { prevHash := "g", timestamp := 1120, difficulty := some 7 }

/-- C4 witness: the amended theorem at a concrete admission with
difficulty 7. -/
theorem claim_C4_witness :
    ((handleBlock c4Env c4State c4Block2 "b2").2.addedToMainChain = true) ∧
    ((handleBlock c4Env c4State c4Block2 "b2").1.chainState.getCumulativeDifficulty
        = c4State.chainState.getCumulativeDifficulty + (c4Block2.difficulty.getD 0) ∧
      (0 < c4Block2.difficulty.getD 0 →
        c4State.chainState.getCumulativeDifficulty
          < (handleBlock c4Env c4State c4Block2 "b2").1.chainState.getCumulativeDifficulty)) :=
  ⟨rfl,
   ((claim_C4_added_to_main c4Env c4State c4Block2 "b2" rfl).1 rfl).1,
   ((claim_C4_added_to_main c4Env c4State c4Block2 "b2" rfl).1 rfl).2.1⟩

/-! ## Message-signature verification — signature.js (src/unnamed/part_006)

`verifySignature` / `checkSignature` / `getMessageHashV1` /
`getMessageHashV2` / `reduceScalar32` and the local `encodeVarint` are
embedded from the snapshot (the `console.log` debugging is behaviour-free
and dropped; a base58-decode failure, which would crash the source on the
`null.length` access, is modelled as an invalid result).  `ed25519.js`
and `parseAddress` of address.js are not in the snapshot and are
modelled from the spec (§4.1: 32-byte little-endian scalars mod `L`,
twisted-Edwards points with compressed form = y with the sign of x in the
top bit, decompression that may fail, `double_scalar_mul_base(a, P, b) =
a·P + b·G`, identity check). -/

/-- The 25519 field prime `2²⁵⁵ − 19`. -/
def p25519 : Nat := 2 ^ 255 - 19

/-- The Edwards curve constant `d = −121665/121666 mod p`. -/
def d25519 : Nat :=
  37095705934669439343138083508754565189542113879843219016388785533085940283555

/-- `√−1 mod p` (used by decompression). -/
def sqrtM1 : Nat :=
  19681161376707505956807079304988542015446066515923890162744021073123829784752

/-- A curve point in extended coordinates (`x = X/Z`, `y = Y/Z`,
`T = XY/Z`), all residues mod `p25519`. -/
structure EdPoint where
  x : Nat
  y : Nat
  z : Nat
  t : Nat
  deriving Repr, DecidableEq

/-- The neutral element. -/
def identityPoint : EdPoint := ⟨0, 1, 1, 0⟩

/-- Unified extended-coordinates addition (add-2008-hwcd-3, complete for
`a = −1` twisted Edwards; also used for doubling). -/
def pointAdd (P Q : EdPoint) : EdPoint :=
  let A := (P.y + p25519 - P.x) % p25519 * ((Q.y + p25519 - Q.x) % p25519) % p25519
  let B := (P.y + P.x) % p25519 * ((Q.y + Q.x) % p25519) % p25519
  let C := P.t * Q.t % p25519 * (2 * d25519 % p25519) % p25519
  let D := P.z * Q.z % p25519 * 2 % p25519
  let E := (B + p25519 - A) % p25519
  let F := (D + p25519 - C) % p25519
  let G := (D + C) % p25519
  let H := (B + A) % p25519
  ⟨E * F % p25519, G * H % p25519, F * G % p25519, E * H % p25519⟩

/-- A strictness guard: the identity on its second argument, but the
kernel must reduce the first argument to a numeral before continuing, so
iterated modular arithmetic is evaluated step by step instead of as one
deeply nested thunk. -/
def seqNat (a b : Nat) : Nat :=
  match a with
  | 0 => b
  | _ + 1 => b

/-- Fueled square-and-multiply `b ^ e mod m` (the fuel bounds the bit
length of the exponent; 300 covers every use). -/
def powModAux : Nat → Nat → Nat → Nat → Nat
  | 0, _, _, m => 1 % m
  | f + 1, b, e, m =>
      if e = 0 then 1 % m
      else
        let b2 := b * b % m
        seqNat b2
          (let r := powModAux f b2 (e / 2) m
           if e % 2 = 1 then r * b % m else r)

/-- `b ^ e mod m`. -/
def powMod (b e m : Nat) : Nat := powModAux 300 b e m

/-- The strictness guard at `EdPoint` result type. -/
def seqNatP (a : Nat) (k : EdPoint) : EdPoint :=
  match a with
  | 0 => k
  | _ + 1 => k

/-- Force all four coordinates of `P` before continuing with `k`. -/
def seqPoint (P k : EdPoint) : EdPoint :=
  seqNatP P.x (seqNatP P.y (seqNatP P.z (seqNatP P.t k)))

/-- Fueled double-and-add `n · P` (each doubling is forced so the kernel
evaluates the 252-step ladder iteratively). -/
def scalarMultAux : Nat → Nat → EdPoint → EdPoint
  | 0, _, _ => identityPoint
  | f + 1, n, P =>
      if n = 0 then identityPoint
      else
        let Pd := pointAdd P P
        seqPoint Pd
          (let r := scalarMultAux f (n / 2) Pd
           if n % 2 = 1 then pointAdd r P else r)

/-- `n · P`. -/
def scalarMultPoint (n : Nat) (P : EdPoint) : EdPoint := scalarMultAux 300 n P

/-- The base point `G`. -/
def basePoint : EdPoint :=
  ⟨15112221349535400772501151409588531511454012693041857206046113283949847762202,
   46316835694926478169428394003475163141307993866256225615783033603165251855960,
   1,
   15112221349535400772501151409588531511454012693041857206046113283949847762202
     * 46316835694926478169428394003475163141307993866256225615783033603165251855960
     % p25519⟩

/-- Compression: 32 little-endian bytes of `y` with the parity of `x` in
the top bit. -/
def compressPoint (P : EdPoint) : List Nat :=
  let zinv := powMod P.z (p25519 - 2) p25519
  let x := P.x * zinv % p25519
  let y := P.y * zinv % p25519
  natToLe 32 (y + x % 2 * 2 ^ 255)

/-- `doubleScalarMultBase(a, P, b) = a·P + b·G`, compressed. -/
def doubleScalarMultBase (a : List Nat) (P : EdPoint) (b : List Nat) : List Nat :=
  compressPoint (pointAdd (scalarMultPoint (leNat a) P)
    (scalarMultPoint (leNat b) basePoint))

/-- The sign-adjustment tail of decompression. -/
def decompressFinish (x y sign : Nat) : Option EdPoint :=
  if x = 0 ∧ sign = 1 then none
  else
    let x2 := if x % 2 ≠ sign then (p25519 - x) % p25519 else x
    some ⟨x2, y, 1, x2 * y % p25519⟩

/-- `pointFromBytes`: RFC-8032 style decompression (`none` on a
non-residue or a non-canonical `y`). -/
def pointFromBytes (bytes : List Nat) : Option EdPoint :=
  let n := leNat bytes
  let sign := n / 2 ^ 255 % 2
  let y := n % 2 ^ 255
  if p25519 ≤ y then none
  else
    let u := (y * y % p25519 + p25519 - 1) % p25519
    let v := (d25519 * (y * y % p25519) % p25519 + 1) % p25519
    let w := u * powMod v (p25519 - 2) p25519 % p25519
    let x := powMod w ((p25519 + 3) / 8) p25519
    if x * x % p25519 = w then decompressFinish x y sign
    else if x * x % p25519 = (p25519 - w) % p25519 then
      decompressFinish (x * sqrtM1 % p25519) y sign
    else none

/-- `scalarCheck`: the 32 little-endian bytes are a canonical scalar
(< `L`). -/
def scalarCheck (s : List Nat) : Bool :=
  decide (leNat s < L)

/-- `scalarIsNonzero`. -/
def scalarIsNonzero (s : List Nat) : Bool :=
  decide (leNat s ≠ 0)

/-- `scalarSub`: `(a − b) mod L` as 32 little-endian bytes. -/
def scalarSub (a b : List Nat) : List Nat :=
  natToLe 32 ((L + leNat a % L - leNat b % L) % L)

/-- `isIdentity`: the compressed identity (`y = 1`, sign 0). -/
def isIdentity (bytes : List Nat) : Bool :=
  decide (bytes = natToLe 32 1)

/-- `reduceScalar32` of signature.js: read little-endian, reduce mod `L`,
write 32 little-endian bytes. -/
def reduceScalar32 (x : List Nat) : List Nat :=
  natToLe 32 (leNat x % L)

/-- The body of `checkSignature` after the public key has decompressed:
compute `R' = c·P + r·G`, reject the identity, recompute and compare the
reduced challenge. -/
def checkSigWithPoint (hash publicKey sigC sigR : List Nat) (P : EdPoint) : Bool :=
  if isIdentity (doubleScalarMultBase sigC P sigR) = true then false
  else
    !(scalarIsNonzero (scalarSub
      (reduceScalar32 (keccak256
        (hash ++ publicKey ++ doubleScalarMultBase sigC P sigR))) sigC))

/-- `checkSignature(hash, publicKey, sigC, sigR)` of signature.js. -/
def checkSignature (hash publicKey sigC sigR : List Nat) : Bool :=
  if scalarCheck sigC = false ∨ scalarCheck sigR = false ∨
      scalarIsNonzero sigC = false then false
  else
    match pointFromBytes publicKey with
    | none => false
    | some P => checkSigWithPoint hash publicKey sigC sigR P

/-- `HASH_KEY_MESSAGE_SIGNING`: the domain string with its null
terminator. -/
def HASH_KEY_MESSAGE_SIGNING : List Nat :=
  asciiBytes "MoneroMessageSignature" ++ [0]

/-- `getMessageHashV1(message)`. -/
def getMessageHashV1 (message : List Nat) : List Nat :=
  keccak256 message

/-- `getMessageHashV2(message, spendKey, viewKey, mode)`; the local
`encodeVarint` of signature.js produces the same bytes as base58.js's for
every in-range length. -/
def getMessageHashV2 (message spendKey viewKey : List Nat) (mode : Nat) : List Nat :=
  keccak256 (HASH_KEY_MESSAGE_SIGNING ++ spendKey ++ viewKey ++ [mode]
    ++ encodeVarint message.length ++ message)

/-- Modelled from the spec: `parseAddress` of address.js — decode,
accept a known key-carrying prefix (mainnet standard/subaddress), split
the 64-byte payload into spend and view public keys. -/
def parseAddress (addr : List Nat) : Option (List Nat × List Nat) :=
  match decodeAddress addr with
  | none => none
  | some (tag, data) =>
      if (tag = 0x3ef318 ∨ tag = 0xf5ef318) ∧ data.length = 64 then
        some (data.take 32, (data.drop 32).take 32)
      else none

/-- The hash `verifySignature` uses for one attempt: the V1 hash ignores
the key mode. -/
def verifyHash (isV1 : Bool) (message spendKey viewKey : List Nat) (mode : Nat) :
    List Nat :=
  if isV1 = true then getMessageHashV1 message
  else getMessageHashV2 message spendKey viewKey mode

/-- The result record of `verifySignature` (the error strings are
behaviour-free and dropped). -/
structure VerifyResult where
  valid : Bool
  version : Nat
  keyType : Option String
  deriving Repr, DecidableEq

/-- The common tail of `verifySignature` once the header has fixed the
version: base58-decode the blob, check 65 bytes, parse the address, try
the spend key (mode 0) and then the view key (mode 1). -/
def verifySigCore (isV1 : Bool) (version : Nat) (message addr signature : List Nat) :
    VerifyResult :=
  match b58Decode (signature.drop 5) with
  | none => ⟨false, version, none⟩
  | some sigBytes =>
      if sigBytes.length ≠ 65 then ⟨false, version, none⟩
      else
        match parseAddress addr with
        | none => ⟨false, version, none⟩
        | some (spendKey, viewKey) =>
            if checkSignature (verifyHash isV1 message spendKey viewKey 0) spendKey
                (sigBytes.take 32) ((sigBytes.drop 32).take 32) = true then
              ⟨true, version, some "spend"⟩
            else if checkSignature (verifyHash isV1 message spendKey viewKey 1) viewKey
                (sigBytes.take 32) ((sigBytes.drop 32).take 32) = true then
              ⟨true, version, some "view"⟩
            else ⟨false, version, none⟩

/-- `verifySignature(message, address, signature)` of signature.js
(strings as character-code lists; the headers are mutually exclusive, so
the header dispatch is written as a two-way if). -/
def verifySignature (message addr signature : List Nat) : VerifyResult :=
  if signature.take 5 = asciiBytes "SigV1" then
    verifySigCore true 1 message addr signature
  else if signature.take 5 = asciiBytes "SigV2" then
    verifySigCore false 2 message addr signature
  else ⟨false, 0, none⟩

theorem leNat_natToLe : ∀ (k n : Nat), n < 256 ^ k → leNat (natToLe k n) = n := by
  intro k
  induction k with
  | zero =>
      intro n hn
      simp at hn
      subst hn
      rfl
  | succ j ih =>
      intro n hn
      show n % 256 + 256 * leNat (natToLe j (n / 256)) = n
      rw [ih (n / 256) (by
        rw [pow_succ] at hn
        exact Nat.div_lt_of_lt_mul (by omega))]
      omega

theorem L_lt_pow : L < 256 ^ 32 := by decide

theorem L_pos : 0 < L := by decide

theorem modsub_zero (x y : Nat) (hx : x < L) (hy : y < L) :
    (L + x - y) % L = 0 ↔ x = y := by
  unfold L at hx hy ⊢
  omega

theorem scalarSub_reduce_zero (K : List Nat) (cc : List Nat) (hlen : cc.length = 32)
    (hb : ∀ b ∈ cc, b < 256) (hcanon : leNat cc < L) :
    (scalarIsNonzero (scalarSub (reduceScalar32 K) cc) = false ↔
      reduceScalar32 K = cc) := by
  unfold scalarIsNonzero scalarSub reduceScalar32
  have hKL : leNat K % L < L := Nat.mod_lt _ L_pos
  have hA : leNat (natToLe 32 (leNat K % L)) = leNat K % L :=
    leNat_natToLe 32 _ (lt_trans hKL L_lt_pow)
  rw [hA, Nat.mod_eq_of_lt hKL, Nat.mod_eq_of_lt hcanon]
  have hV : (L + leNat K % L - leNat cc) % L < L := Nat.mod_lt _ L_pos
  rw [show (decide (leNat (natToLe 32 ((L + leNat K % L - leNat cc) % L)) ≠ 0) = false)
      ↔ ((L + leNat K % L - leNat cc) % L = 0) from by
    rw [leNat_natToLe 32 _ (lt_trans hV L_lt_pow)]
    simp]
  rw [modsub_zero _ _ hKL hcanon]
  constructor
  · intro h
    rw [h]
    rw [show natToLe 32 (leNat cc) = natToLe cc.length (leNat cc) from by rw [hlen]]
    exact natToLe_leNat cc hb
  · intro h
    have := congrArg leNat h
    rw [leNat_natToLe 32 _ (lt_trans hKL L_lt_pow)] at this
    exact this

theorem checkSignature_iff (hash K cc rr : List Nat) (hlen : cc.length = 32)
    (hb : ∀ b ∈ cc, b < 256) :
    checkSignature hash K cc rr = true ↔
      (scalarCheck cc = true ∧ scalarCheck rr = true ∧ scalarIsNonzero cc = true ∧
       ∃ P, pointFromBytes K = some P ∧
         isIdentity (doubleScalarMultBase cc P rr) = false ∧
         reduceScalar32 (keccak256 (hash ++ K ++ doubleScalarMultBase cc P rr)) = cc) := by
  unfold checkSignature
  by_cases hg : scalarCheck cc = false ∨ scalarCheck rr = false ∨
      scalarIsNonzero cc = false
  · rw [if_pos hg]
    constructor
    · intro h
      exact Bool.noConfusion h
    · rintro ⟨h1, h2, h3, _⟩
      rcases hg with hg | hg | hg
      · rw [h1] at hg
        exact Bool.noConfusion hg
      · rw [h2] at hg
        exact Bool.noConfusion hg
      · rw [h3] at hg
        exact Bool.noConfusion hg
  · rw [if_neg hg]
    have h1 : scalarCheck cc = true := by
      cases h : scalarCheck cc with
      | true => rfl
      | false => exact absurd (Or.inl h) hg
    have h2 : scalarCheck rr = true := by
      cases h : scalarCheck rr with
      | true => rfl
      | false => exact absurd (Or.inr (Or.inl h)) hg
    have h3 : scalarIsNonzero cc = true := by
      cases h : scalarIsNonzero cc with
      | true => rfl
      | false => exact absurd (Or.inr (Or.inr h)) hg
    have hcanon : leNat cc < L := by
      have := h1
      unfold scalarCheck at this
      exact of_decide_eq_true this
    cases hP : pointFromBytes K with
    | none =>
        constructor
        · intro h
          exact Bool.noConfusion h
        · rintro ⟨_, _, _, P, hPeq, _⟩
          exact Option.noConfusion hPeq
    | some P =>
        show checkSigWithPoint hash K cc rr P = true ↔ _
        unfold checkSigWithPoint
        by_cases hid : isIdentity (doubleScalarMultBase cc P rr) = true
        · rw [if_pos hid]
          constructor
          · intro h
            exact Bool.noConfusion h
          · rintro ⟨_, _, _, Q, hQeq, hQid, _⟩
            have hPQ := Option.some.inj hQeq
            rw [← hPQ] at hQid
            rw [hid] at hQid
            exact Bool.noConfusion hQid
        · rw [if_neg hid]
          have hid2 : isIdentity (doubleScalarMultBase cc P rr) = false := by
            cases h : isIdentity (doubleScalarMultBase cc P rr) with
            | true => exact absurd h hid
            | false => rfl
          constructor
          · intro h
            refine ⟨h1, h2, h3, P, rfl, hid2, ?_⟩
            have h4 : scalarIsNonzero (scalarSub
                (reduceScalar32 (keccak256 (hash ++ K ++ doubleScalarMultBase cc P rr)))
                cc) = false := by
              cases hx : scalarIsNonzero (scalarSub
                  (reduceScalar32 (keccak256 (hash ++ K ++ doubleScalarMultBase cc P rr)))
                  cc) with
              | true =>
                  rw [hx] at h
                  exact Bool.noConfusion h
              | false => rfl
            exact (scalarSub_reduce_zero _ cc hlen hb hcanon).mp h4
          · rintro ⟨_, _, _, Q, hQeq, _, heq⟩
            have hPQ : P = Q := Option.some.inj hQeq
            rw [← hPQ] at heq
            have h4 := (scalarSub_reduce_zero
              (keccak256 (hash ++ K ++ doubleScalarMultBase cc P rr)) cc hlen hb
              hcanon).mpr heq
            rw [h4]
            rfl

theorem verifySigCore_result (isV1 : Bool) (version : Nat)
    (message addr signature sigBytes spendKey viewKey : List Nat)
    (hdec : b58Decode (signature.drop 5) = some sigBytes)
    (hlen : sigBytes.length = 65)
    (haddr : parseAddress addr = some (spendKey, viewKey)) :
    (checkSignature (verifyHash isV1 message spendKey viewKey 0) spendKey
        (sigBytes.take 32) ((sigBytes.drop 32).take 32) = true →
      verifySigCore isV1 version message addr signature
        = ⟨true, version, some "spend"⟩) ∧
    (checkSignature (verifyHash isV1 message spendKey viewKey 0) spendKey
        (sigBytes.take 32) ((sigBytes.drop 32).take 32) = false →
      checkSignature (verifyHash isV1 message spendKey viewKey 1) viewKey
        (sigBytes.take 32) ((sigBytes.drop 32).take 32) = true →
      verifySigCore isV1 version message addr signature
        = ⟨true, version, some "view"⟩) ∧
    (checkSignature (verifyHash isV1 message spendKey viewKey 0) spendKey
        (sigBytes.take 32) ((sigBytes.drop 32).take 32) = false →
      checkSignature (verifyHash isV1 message spendKey viewKey 1) viewKey
        (sigBytes.take 32) ((sigBytes.drop 32).take 32) = false →
      verifySigCore isV1 version message addr signature
        = ⟨false, version, none⟩) := by
  have hred : verifySigCore isV1 version message addr signature
      = if checkSignature (verifyHash isV1 message spendKey viewKey 0) spendKey
            (sigBytes.take 32) ((sigBytes.drop 32).take 32) = true then
          ⟨true, version, some "spend"⟩
        else if checkSignature (verifyHash isV1 message spendKey viewKey 1) viewKey
            (sigBytes.take 32) ((sigBytes.drop 32).take 32) = true then
          ⟨true, version, some "view"⟩
        else ⟨false, version, none⟩ := by
    unfold verifySigCore
    rw [hdec]
    show (if sigBytes.length ≠ 65 then (⟨false, version, none⟩ : VerifyResult)
      else _) = _
    rw [if_neg (by omega), haddr]
  refine ⟨?_, ?_, ?_⟩
  · intro hs
    rw [hred, if_pos hs]
  · intro hs hv
    rw [hred, if_neg (by rw [hs]; exact Bool.noConfusion), if_pos hv]
  · intro hs hv
    rw [hred, if_neg (by rw [hs]; exact Bool.noConfusion),
        if_neg (by rw [hv]; exact Bool.noConfusion)]
/-- C8 (amended): for every message, address and signature whose header,
base58 blob (65 bytes `c ‖ r ‖ sign_mask`) and address are well-formed,
`verifySignature` tries the spend key first (mode byte 0 in the V2 hash)
and then the view key (mode byte 1), reporting `keyType` for whichever
succeeded; and one attempt succeeds **exactly when, in addition to the
hash comparison the claim states, the guards pass**: `c` and `r` are
canonical scalars, `c ≠ 0`, the key decompresses, and
`R' = c·K + r·G` is not the identity — only then is
`reduce(Keccak256(h ‖ K ‖ R')) = c` the verdict. -/
theorem claim_C8_signature_verify
    (message addr signature sigBytes spendKey viewKey : List Nat) (isV1 : Bool)
    (hhdr : signature.take 5 = asciiBytes (if isV1 = true then "SigV1" else "SigV2"))
    (hdec : b58Decode (signature.drop 5) = some sigBytes)
    (hlen : sigBytes.length = 65)
    (haddr : parseAddress addr = some (spendKey, viewKey)) :
    (∀ hash K cc rr : List Nat, cc.length = 32 → (∀ b ∈ cc, b < 256) →
      (checkSignature hash K cc rr = true ↔
        (scalarCheck cc = true ∧ scalarCheck rr = true ∧ scalarIsNonzero cc = true ∧
         ∃ P, pointFromBytes K = some P ∧
           isIdentity (doubleScalarMultBase cc P rr) = false ∧
           reduceScalar32 (keccak256 (hash ++ K ++ doubleScalarMultBase cc P rr))
             = cc))) ∧
    (checkSignature (verifyHash isV1 message spendKey viewKey 0) spendKey
        (sigBytes.take 32) ((sigBytes.drop 32).take 32) = true →
      verifySignature message addr signature
        = ⟨true, if isV1 = true then 1 else 2, some "spend"⟩) ∧
    (checkSignature (verifyHash isV1 message spendKey viewKey 0) spendKey
        (sigBytes.take 32) ((sigBytes.drop 32).take 32) = false →
      checkSignature (verifyHash isV1 message spendKey viewKey 1) viewKey
        (sigBytes.take 32) ((sigBytes.drop 32).take 32) = true →
      verifySignature message addr signature
        = ⟨true, if isV1 = true then 1 else 2, some "view"⟩) ∧
    (checkSignature (verifyHash isV1 message spendKey viewKey 0) spendKey
        (sigBytes.take 32) ((sigBytes.drop 32).take 32) = false →
      checkSignature (verifyHash isV1 message spendKey viewKey 1) viewKey
        (sigBytes.take 32) ((sigBytes.drop 32).take 32) = false →
      verifySignature message addr signature
        = ⟨false, if isV1 = true then 1 else 2, none⟩) := by
  have hv : verifySignature message addr signature
      = verifySigCore isV1 (if isV1 = true then 1 else 2) message addr signature := by
    unfold verifySignature
    cases isV1 with
    | true =>
        have hhdr2 : signature.take 5 = asciiBytes "SigV1" := hhdr
        rw [if_pos hhdr2]
        rfl
    | false =>
        have hhdr2 : signature.take 5 = asciiBytes "SigV2" := hhdr
        have hne : ¬ signature.take 5 = asciiBytes "SigV1" := by
          rw [hhdr2]
          decide
        rw [if_neg hne, if_pos hhdr2]
        rfl
  have hc := verifySigCore_result isV1 (if isV1 = true then 1 else 2) message addr
    signature sigBytes spendKey viewKey hdec hlen haddr
  refine ⟨fun hash K cc rr hl hbb => checkSignature_iff hash K cc rr hl hbb,
    ?_, ?_, ?_⟩
  · intro hs
    rw [hv]
    exact hc.1 hs
  · intro hs hv2
    rw [hv]
    exact hc.2.1 hs hv2
  · intro hs hv2
    rw [hv]
    exact hc.2.2 hs hv2

/-- The compressed identity point (32 bytes, `y = 1`). -/
def c8IdB : List Nat := natToLe 32 1

/-- The counterexample message (empty). -/
def c8Msg : List Nat := []

/-- An address whose spend and view keys are both the identity point. -/
def c8Addr : List Nat := encodeAddress 0x3ef318 (c8IdB ++ c8IdB)

/-- The mode-0 V2 message hash for that address. -/
def c8Hash : List Nat := getMessageHashV2 c8Msg c8IdB c8IdB 0

/-- The crafted `c`: the reduced challenge for `R' = identity`, so the
claim's hash-equality holds by construction. -/
def c8C : List Nat := reduceScalar32 (keccak256 (c8Hash ++ c8IdB ++ c8IdB))

/-- The 65-byte signature blob `c ‖ r = 0 ‖ sign_mask = 0`. -/
def c8SigBytes : List Nat := c8C ++ natToLe 32 0 ++ [0]

/-- The full signature string `"SigV2" ‖ base58(blob)`. -/
def c8Sig : List Nat := asciiBytes "SigV2" ++ b58Encode c8SigBytes

set_option maxHeartbeats 8000000 in
/-- C8, counterexample to the unamended claim: with the identity point as
spend key, `r = 0` and `c` chosen as the reduced challenge of
`R' = c·K + r·G = identity`, the claimed equality
`reduce(Keccak256(h ‖ K ‖ R')) = c` **holds** (third conjunct) and the
scalars are canonical and nonzero, yet `verifySignature` returns
`valid = false` because `checkSignature` rejects an identity `R'` —
"returns valid = true exactly when that value equals `c`" is too weak. -/
theorem claim_C8_counterexample :
    pointFromBytes c8IdB = some identityPoint ∧
    doubleScalarMultBase c8C identityPoint (natToLe 32 0) = c8IdB ∧
    reduceScalar32 (keccak256 (c8Hash ++ c8IdB
      ++ doubleScalarMultBase c8C identityPoint (natToLe 32 0))) = c8C ∧
    scalarCheck c8C = true ∧ scalarCheck (natToLe 32 0) = true ∧
    scalarIsNonzero c8C = true ∧
    parseAddress c8Addr = some (c8IdB, c8IdB) ∧
    (verifySignature c8Msg c8Addr c8Sig).valid = false := by
  refine ⟨by decide, by decide, by decide, by decide, by decide, by decide,
    by decide, by decide⟩

set_option maxHeartbeats 8000000 in
/-- C8 witness: the amended theorem at the concrete identity-key inputs;
both guarded attempts fail, so the verdict is
`{valid := false, version := 2, keyType := none}`. -/
theorem claim_C8_witness :
    (c8Sig.take 5 = asciiBytes "SigV2" ∧ b58Decode (c8Sig.drop 5) = some c8SigBytes ∧
      c8SigBytes.length = 65 ∧ parseAddress c8Addr = some (c8IdB, c8IdB)) ∧
    verifySignature c8Msg c8Addr c8Sig = ⟨false, 2, none⟩ := by
  have h := claim_C8_signature_verify c8Msg c8Addr c8Sig c8SigBytes c8IdB c8IdB false
    (by decide) (by decide) (by decide) (by decide)
  exact ⟨⟨by decide, by decide, by decide, by decide⟩,
    h.2.2.2 (by decide) (by decide)⟩

end SalviumJS
